import Mathlib

/-!
Verification of the autoform schema-resolution module
(`src/yafowil/plone/autoform/schema.py`).

The module is embedded shallowly:

* Python dicts (`fieldsets`, the per-schema `OrderedDict` of fields, the
  merged widget-tag mapping) are association lists (`List (String × β)`)
  with insert-or-update (`odSet`) keeping an existing key's position and
  appending a new key at the end.  This fixes the mapping content; for
  the `OrderedDict` of fields the list order is also the meaningful
  iteration order.  The `fieldsets` map, however, is a plain dict in
  Python 2 code (the module uses `basestring`), so the order in which
  `fieldsets.values()` enumerates its values is unspecified (hash-based);
  that enumeration is therefore a parameter of `resolve_schemata`
  (`IsValuesEnum`), not the association list's order.
* Exceptions (`KeyError` from `fields.pop`, `RuntimeError` for unknown
  widget annotations) become an `Except ResolveError` result; the spec's
  names `MissingFieldError` / `UnknownWidgetError` are used for the two
  error conditions originating in the module.
* `sorted(fieldsets.values(), key=attrgetter('order'))` is a stable sort
  by the numeric `order` key of whatever enumeration the dict yields;
  every stable sort computes the same list, so it is embedded as
  `List.insertionSort` on the `order`-comparison relation, applied to the
  parameterized value enumeration.
* External collaborators (`getFieldsInOrder`, `mergedTaggedValueDict`,
  `mergedTaggedValueList`, `zope.dottedname.resolve`, the i18n message
  factory, `ParameterizedWidget`) appear as opaque input data or opaque
  value constructors, following the contracts in the specification.
-/

deriving instance DecidableEq for Except

namespace Yafowil

/-- Modelled from the spec: `DEFAULT_ORDER` is the external schema
library's distinguished "natural/unset" order sentinel, an ordinary
comparable value.  Its concrete numeric value plays no role in the
theorems below; a fixed value keeps the development executable. -/
def DEFAULT_ORDER : Int := 10000

/-- Display label values: a plain string, or a localized message (message
id plus default translation) as produced by the i18n message factory.
Python compares a message with a plain string by underlying string
value. -/
inductive Label where
  | plain (s : String)
  | message (msgid : String) (dflt : String)
deriving DecidableEq

/-- The underlying string value of a label, used by Python equality. -/
def Label.text : Label → String
  | .plain s => s
  | .message m _ => m

/-- Python `==` on optional label values (None / str / Message). -/
def labelEq : Option Label → Option Label → Bool
  | none, none => true
  | some a, some b => a.text == b.text
  | _, _ => false

/-- Python `==` between an optional label value and a plain string
(a group's `name`).  `None` never equals a string. -/
def labelEqStr : Option Label → String → Bool
  | some a, s => a.text == s
  | none, _ => false

/-- Opaque widget-factory objects.  `resolved p` is the object obtained by
dotted-name resolution of path `p`; `direct n` stands for a factory object
carried directly by a `ParameterizedWidget` annotation. -/
inductive Factory where
  | resolved (path : String)
  | direct (n : Nat)
deriving DecidableEq

/-- The `zope.dottedname.resolve` collaborator, treated as an opaque
injection of dotted paths into factory objects. -/
def resolve (path : String) : Factory := .resolved path

/-- Opaque widget constructor-parameter mappings. -/
abbrev Params := List (String × Nat)

/-- `plone.autoform.widgets.ParameterizedWidget` annotation data. -/
structure ParameterizedWidget where
  widget_factory : Option Factory
  params : Params
deriving DecidableEq

/-- `yafowil.plone.autoform.schema.Widget`: factory and params. -/
structure Widget where
  factory : Option Factory
  params : Params
deriving DecidableEq

/-- Raw per-field widget annotation value from the merged widget-tag
mapping: a `ParameterizedWidget` instance, a dotted path string, or any
other Python value (its truthiness recorded, its identity opaque). -/
inductive RawWidget where
  | parameterized (w : ParameterizedWidget)
  | str (s : String)
  | other (truthy : Bool) (n : Nat)
deriving DecidableEq

/-- Python truthiness of an optional raw annotation (`not schema_widget`):
absent is falsy, instances are truthy, a string is truthy iff nonempty. -/
def rawTruthy : Option RawWidget → Bool
  | none => false
  | some (.parameterized _) => true
  | some (.str s) => !(s == "")
  | some (.other t _) => t

/-- The two error conditions originating in the module (the source raises
`KeyError` via `fields.pop` and `RuntimeError` for unknown widgets; the
specification names them `MissingFieldError` and `UnknownWidgetError`). -/
inductive ResolveError where
  | UnknownWidgetError (offending : RawWidget)
  | MissingFieldError (name : String)
deriving DecidableEq

/-- `resolve_widget`: normalize a raw widget annotation. -/
def resolve_widget (schema_widget : Option RawWidget) :
    Except ResolveError (Option Widget) :=
  if rawTruthy schema_widget = false then .ok none
  else
    match schema_widget with
    | some (.parameterized w) =>
        .ok (some { factory := w.widget_factory, params := w.params })
    | some (.str s) => .ok (some { factory := some (resolve s), params := [] })
    | some w => .error (.UnknownWidgetError w)
    | none => .ok none

/-- Field metadata exposed by the external schema system
(`zope.schema` field objects): title, description, required flag. -/
structure SchemaField where
  title : String
  description : Option String
  required : Bool
deriving DecidableEq

/-- `yafowil.plone.autoform.schema.Field`: descriptor for one schema
field, with convenience snapshots of label / help / required. -/
structure Field where
  name : String
  schemafield : SchemaField
  schema : Nat
  widget : Option Widget
  mode : String
  is_behavior : Bool
  label : String
  help : Option String
  required : Bool
deriving DecidableEq

/-- `yafowil.plone.autoform.schema.Fieldset`: named group with label,
description, order and ordered children. -/
structure Fieldset where
  name : String
  label : Option Label
  description : Option String
  order : Int
  children : List Field
deriving DecidableEq

/-- A raw fieldset (group) declaration from the merged `FIELDSETS_KEY`
tag list: `__name__`, label, description, order and member field names. -/
structure SchemaFieldset where
  name : String
  label : Option Label
  description : Option String
  order : Int
  fields : List String
deriving DecidableEq

/-- One input schema, as seen through the external collaborators: its
identity, its ordered field list (`getFieldsInOrder`), its merged widget
tag mapping (`mergedTaggedValueDict(schema, WIDGETS_KEY)`) and its merged
fieldset declaration list (`mergedTaggedValueList(schema, FIELDSETS_KEY)`). -/
structure Schema where
  id : Nat
  fieldsInOrder : List (String × SchemaField)
  widgets : List (String × RawWidget)
  schema_fieldsets : List SchemaFieldset
deriving DecidableEq

/-! ### Insertion-ordered association maps (Python dict semantics) -/

/-- Dict lookup (`m.get(key)` / `m[key]`). -/
def odLookup {β : Type} : List (String × β) → String → Option β
  | [], _ => none
  | (k, v) :: rest, key => if k = key then some v else odLookup rest key

/-- Dict assignment `m[key] = val`: update in place keeps the key's
position, a new key is appended at the end. -/
def odSet {β : Type} : List (String × β) → String → β → List (String × β)
  | [], key, val => [(key, val)]
  | (k, v) :: rest, key, val =>
      if k = key then (k, val) :: rest else (k, v) :: odSet rest key val

/-- Dict `m.pop(key)` without default: the value and the remaining map,
or `none` (a `KeyError`) when the key is absent. -/
def odPop {β : Type} : List (String × β) → String → Option (β × List (String × β))
  | [], _ => none
  | (k, v) :: rest, key =>
      if k = key then some (v, rest)
      else
        match odPop rest key with
        | none => none
        | some (v', rest') => some (v', (k, v) :: rest')

def odKeys {β : Type} (m : List (String × β)) : List String := m.map Prod.fst

def odValues {β : Type} (m : List (String × β)) : List β := m.map Prod.snd

/-- The running collection of groups built by `resolve_schemata`. -/
abbrev Fieldsets := List (String × Fieldset)

/-- `fieldset.add(child)` on the map entry `name` (append to its
children); the entry is always present at every call site. -/
def odAddChild (fieldsets : Fieldsets) (name : String) (f : Field) : Fieldsets :=
  match odLookup fieldsets name with
  | none => fieldsets
  | some fs => odSet fieldsets name { fs with children := fs.children ++ [f] }

/-- The "case new fieldset" branch of `resolve_fieldset`: a fresh
`Fieldset` from the declaration's data, with no children. -/
def newFieldset (sf : SchemaFieldset) : Fieldset :=
  { name := sf.name, label := sf.label, description := sf.description,
    order := sf.order, children := [] }

/-- The "case fieldset exists" branch of `resolve_fieldset`: the
per-attribute merge of a redeclaration into the existing fieldset. -/
def mergeFieldset (fieldset : Fieldset) (sf : SchemaFieldset) : Fieldset :=
  let fs1 :=
    if !labelEq sf.label fieldset.label && !labelEqStr sf.label fieldset.name
    then { fieldset with label := sf.label } else fieldset
  let fs2 :=
    match sf.description with
    | some d => { fs1 with description := some d }
    | none => fs1
  if sf.order ≠ DEFAULT_ORDER then { fs2 with order := sf.order } else fs2

/-- `resolve_fieldset`: get-or-create plus per-attribute merge. -/
def resolve_fieldset (fieldsets : Fieldsets) (sf : SchemaFieldset) : Fieldsets :=
  match odLookup fieldsets sf.name with
  | none => odSet fieldsets sf.name (newFieldset sf)
  | some fieldset => odSet fieldsets sf.name (mergeFieldset fieldset sf)

/-- Construction of a `Field` descriptor for one schema field. -/
def mkField (schemaId : Nat) (b : Bool) (name : String) (sf : SchemaField)
    (w : Option Widget) : Field :=
  { name := name, schemafield := sf, schema := schemaId, widget := w,
    mode := "edit", is_behavior := b,
    label := sf.title, help := sf.description, required := sf.required }

/-- The per-schema field-collection loop: an `OrderedDict` of `Field`
descriptors in declaration order, with widgets resolved. -/
def buildFields (schemaId : Nat) (b : Bool) (widgets : List (String × RawWidget)) :
    List (String × SchemaField) → List (String × Field) →
    Except ResolveError (List (String × Field))
  | [], acc => .ok acc
  | (name, sf) :: rest, acc =>
      match resolve_widget (odLookup widgets name) with
      | .error e => .error e
      | .ok w => buildFields schemaId b widgets rest (odSet acc name (mkField schemaId b name sf w))

/-- The member loop of one fieldset declaration:
`fieldset.add(fields.pop(field_name))` for each declared member name. -/
def addFields (fieldsets : Fieldsets) (fsName : String) :
    List String → List (String × Field) →
    Except ResolveError (Fieldsets × List (String × Field))
  | [], fields => .ok (fieldsets, fields)
  | n :: rest, fields =>
      match odPop fields n with
      | none => .error (.MissingFieldError n)
      | some (f, fields') => addFields (odAddChild fieldsets fsName f) fsName rest fields'

/-- The fieldset-declaration loop of one schema. -/
def processFieldsets (fieldsets : Fieldsets) (fields : List (String × Field)) :
    List SchemaFieldset → Except ResolveError (Fieldsets × List (String × Field))
  | [] => .ok (fieldsets, fields)
  | sf :: rest =>
      match addFields (resolve_fieldset fieldsets sf) sf.name sf.fields fields with
      | .error e => .error e
      | .ok (fieldsets', fields') => processFieldsets fieldsets' fields' rest

/-- Append the remaining (ungrouped) fields to the default fieldset. -/
def addRemaining (fieldsets : Fieldsets) (fields : List (String × Field)) : Fieldsets :=
  fields.foldl (fun m p => odAddChild m "default" p.2) fieldsets

/-- Processing of a single schema inside `resolve_schemata`'s loop. -/
def processSchema (fieldsets : Fieldsets) (schema : Schema) (b : Bool) :
    Except ResolveError Fieldsets :=
  match buildFields schema.id b schema.widgets schema.fieldsInOrder [] with
  | .error e => .error e
  | .ok fields =>
      match processFieldsets fieldsets fields schema.schema_fieldsets with
      | .error e => .error e
      | .ok (fieldsets', rest) => .ok (addRemaining fieldsets' rest)

/-- The schema loop of `resolve_schemata` (`idx` tracks the enumeration
index; `is_behavior` is `idx != 0`). -/
def processSchemata (fieldsets : Fieldsets) (idx : Nat) :
    List Schema → Except ResolveError Fieldsets
  | [] => .ok fieldsets
  | s :: rest =>
      match processSchema fieldsets s (idx != 0) with
      | .error e => .error e
      | .ok fieldsets' => processSchemata fieldsets' (idx + 1) rest

/-- The bootstrap default fieldset: name `"default"`, localized label
(message id `"default"`, default translation `"Default"`), unset order. -/
def defaultFieldset : Fieldset :=
  { name := "default", label := some (.message "default" "Default"),
    description := none, order := DEFAULT_ORDER, children := [] }

def initialFieldsets : Fieldsets := [("default", defaultFieldset)]

/-- The sort relation of the final `sorted(..., key=attrgetter('order'))`. -/
def orderLe (a b : Fieldset) : Prop := a.order ≤ b.order

instance : DecidableRel orderLe := fun a b => inferInstanceAs (Decidable (a.order ≤ b.order))

instance : IsTotal Fieldset orderLe := ⟨fun a b => Int.le_total a.order b.order⟩

instance : IsTrans Fieldset orderLe := ⟨fun _ _ _ h1 h2 => le_trans h1 h2⟩

/-- An admissible enumeration of the group map's stored values: any
function yielding each stored value exactly once.  The source sorts
`fieldsets.values()` where `fieldsets` is a plain dict in Python 2 code
(the module uses `basestring`), so the enumeration order of the values is
unspecified (hash-based) — in particular it is not guaranteed to be the
map-insertion order. -/
def IsValuesEnum (vorder : Fieldsets → List Fieldset) : Prop :=
  ∀ m, (vorder m).Perm (odValues m)

/-- One admissible enumeration: the stored values in reverse insertion
order (nothing rules this out for a hash-ordered dict). -/
def revEnum (m : Fieldsets) : List Fieldset := (odValues m).reverse

/-- `resolve_schemata`: the sole public entry point.  The final
`sorted(fieldsets.values(), key=attrgetter('order'))` stable-sorts the
dict's value enumeration; that enumeration `vorder` is a parameter of the
embedding (see `IsValuesEnum`). -/
def resolve_schemata (vorder : Fieldsets → List Fieldset) (schemata : List Schema) :
    Except ResolveError (List Fieldset) :=
  match processSchemata initialFieldsets 0 schemata with
  | .error e => .error e
  | .ok fieldsets => .ok (List.insertionSort orderLe (vorder fieldsets))

/-! ### Derived notions used by the statements -/

/-- The keys of an association map are pairwise distinct (an invariant of
all Python dicts in the module). -/
def NodupKeys {β : Type} (m : List (String × β)) : Prop := (odKeys m).Nodup

/-- All fields contained in the groups of the map, flattened in map and
children order. -/
def allChildren (m : Fieldsets) : List Field :=
  ((odValues m).map Fieldset.children).flatten

/-- All member field names listed by a list of fieldset declarations. -/
def declNames (decls : List SchemaFieldset) : List String :=
  decls.flatMap SchemaFieldset.fields

/-- Look up a list of names in an association map, keeping the found
values in name-list order. -/
def lookupAll {β : Type} (m : List (String × β)) (names : List String) : List β :=
  names.filterMap (odLookup m)

/-- The entry of a map at `k` carries `k` as its `name` (an invariant of
the group map maintained by `resolve_schemata`). -/
def NamesMatch (m : Fieldsets) : Prop :=
  ∀ k v, odLookup m k = some v → v.name = k

/-- `v'` is `v` with the same name and some fields appended to its
children (the only way the resolution loop ever grows a group). -/
def ChildExtends (v' v : Fieldset) : Prop :=
  v'.name = v.name ∧ ∃ t, v'.children = v.children ++ t

/-- Well-formedness of the running group map: distinct keys, entries named
after their keys, and the `"default"` entry present.  Established by the
bootstrap map and preserved by the whole resolution loop. -/
def WF (m : Fieldsets) : Prop :=
  NodupKeys m ∧ NamesMatch m ∧ "default" ∈ odKeys m

/-! ### Concrete scenario inputs -/

/-- A plain schema field with the given title. -/
def sfld (t : String) : SchemaField :=
  { title := t, description := none, required := true }

/-- A schema redeclaring the `"default"` fieldset with label `"Main"`. -/
def schemaDefaultMain : Schema :=
  { id := 1, fieldsInOrder := [], widgets := [],
    schema_fieldsets :=
      [{ name := "default", label := some (.plain "Main"), description := none,
         order := DEFAULT_ORDER, fields := [] }] }

/-- First schema of the order-precedence scenario: group `"g"` declared
with unset order. -/
def schemaOrderA : Schema :=
  { id := 1, fieldsInOrder := [], widgets := [],
    schema_fieldsets :=
      [{ name := "g", label := some (.plain "G"), description := none,
         order := DEFAULT_ORDER, fields := [] }] }

/-- Second schema of the order-precedence scenario: `"g"` redeclared with
order `5`, then a new group `"h"` with order `3`. -/
def schemaOrderB : Schema :=
  { id := 2, fieldsInOrder := [], widgets := [],
    schema_fieldsets :=
      [{ name := "g", label := some (.plain "G"), description := none,
         order := 5, fields := [] },
       { name := "h", label := some (.plain "H"), description := none,
         order := 3, fields := [] }] }

/-- Primary schema of the description scenario: field `"a"`, group
`"info"` with description `"one"` containing `"a"`. -/
def schemaInfoA : Schema :=
  { id := 1, fieldsInOrder := [("a", sfld "A")], widgets := [],
    schema_fieldsets :=
      [{ name := "info", label := some (.plain "Info"), description := some "one",
         order := DEFAULT_ORDER, fields := ["a"] }] }

/-- Behavior schema of the description scenario: field `"b"`, group
`"info"` redeclared with description `"two"` containing `"b"`. -/
def schemaInfoB : Schema :=
  { id := 2, fieldsInOrder := [("b", sfld "B")], widgets := [],
    schema_fieldsets :=
      [{ name := "info", label := some (.plain "Info"), description := some "two",
         order := DEFAULT_ORDER, fields := ["b"] }] }

/-- A schema whose only fieldset declaration names a member `"zzz"` that
is not among its fields. -/
def schemaMissing : Schema :=
  { id := 1, fieldsInOrder := [("a", sfld "A")], widgets := [],
    schema_fieldsets :=
      [{ name := "info", label := some (.plain "Info"), description := none,
         order := DEFAULT_ORDER, fields := ["zzz"] }] }

/-- A schema with fields `a`, `b` whose `"default"` fieldset declaration
claims member `"b"`. -/
def schemaDefaultDecl : Schema :=
  { id := 1, fieldsInOrder := [("a", sfld "A"), ("b", sfld "B")], widgets := [],
    schema_fieldsets :=
      [{ name := "default", label := none, description := none,
         order := DEFAULT_ORDER, fields := ["b"] }] }

/-- A schema declaring two fieldsets `"p"` and `"q"`, both with unset
order, in that declaration order. -/
def schemaStable : Schema :=
  { id := 1, fieldsInOrder := [], widgets := [],
    schema_fieldsets :=
      [{ name := "p", label := some (.plain "P"), description := none,
         order := DEFAULT_ORDER, fields := [] },
       { name := "q", label := some (.plain "Q"), description := none,
         order := DEFAULT_ORDER, fields := [] }] }

/-- The group map produced by processing `[schemaOrderA, schemaOrderB]`. -/
def ordersMap : Fieldsets :=
  [("default", defaultFieldset),
   ("g", { name := "g", label := some (.plain "G"), description := none,
           order := 5, children := [] }),
   ("h", { name := "h", label := some (.plain "H"), description := none,
           order := 3, children := [] })]

/-- The group map produced by processing `[schemaInfoA, schemaInfoB]`. -/
def infoMap : Fieldsets :=
  [("default", defaultFieldset),
   ("info", { name := "info", label := some (.plain "Info"), description := some "two",
              order := DEFAULT_ORDER,
              children := [mkField 1 false "a" (sfld "A") none,
                           mkField 2 true "b" (sfld "B") none] })]

/-- The group map produced by processing `[schemaDefaultDecl]`. -/
def defaultDeclMap : Fieldsets :=
  [("default", { name := "default", label := none, description := none,
                 order := DEFAULT_ORDER,
                 children := [mkField 1 false "b" (sfld "B") none,
                              mkField 1 false "a" (sfld "A") none] })]

/-- The group map produced by processing `[schemaStable]`: `"p"` inserted
before `"q"`, both with unset order. -/
def stableMap : Fieldsets :=
  [("default", defaultFieldset),
   ("p", { name := "p", label := some (.plain "P"), description := none,
           order := DEFAULT_ORDER, children := [] }),
   ("q", { name := "q", label := some (.plain "Q"), description := none,
           order := DEFAULT_ORDER, children := [] })]

/-! ### Association-map lemmas -/

theorem odLookup_odSet_self {β : Type} (m : List (String × β)) (k : String) (v : β) :
    odLookup (odSet m k v) k = some v := by
  induction m with
  | nil => simp [odSet, odLookup]
  | cons p rest ih =>
      obtain ⟨k', v'⟩ := p
      by_cases h : k' = k
      · subst h; simp [odSet, odLookup]
      · simp [odSet, odLookup, h, ih]

theorem odLookup_odSet_ne {β : Type} (m : List (String × β)) (k k' : String) (v : β)
    (h : k' ≠ k) : odLookup (odSet m k v) k' = odLookup m k' := by
  have hne : ¬k = k' := fun hh => h hh.symm
  induction m with
  | nil => simp [odSet, odLookup, hne]
  | cons p rest ih =>
      obtain ⟨k0, v0⟩ := p
      by_cases h0 : k0 = k
      · subst h0
        simp [odSet, odLookup, hne]
      · simp only [odSet, if_neg h0, odLookup]
        by_cases h1 : k0 = k'
        · simp [h1]
        · simp [h1, ih]

theorem mem_odKeys_of_odLookup {β : Type} {m : List (String × β)} {k : String} {v : β}
    (h : odLookup m k = some v) : k ∈ odKeys m := by
  induction m with
  | nil => simp [odLookup] at h
  | cons p rest ih =>
      obtain ⟨k0, v0⟩ := p
      by_cases h0 : k0 = k
      · subst h0; simp [odKeys]
      · simp only [odLookup, if_neg h0] at h
        simpa [odKeys] using Or.inr (ih h)

theorem odLookup_eq_none_of_not_mem {β : Type} {m : List (String × β)} {k : String}
    (h : k ∉ odKeys m) : odLookup m k = none := by
  induction m with
  | nil => rfl
  | cons p rest ih =>
      obtain ⟨k0, v0⟩ := p
      simp only [odKeys, List.map_cons, List.mem_cons, not_or] at h
      have hne : ¬k0 = k := fun hh => h.1 hh.symm
      simp only [odLookup, if_neg hne, ih h.2]

theorem odLookup_isSome_of_mem {β : Type} {m : List (String × β)} {k : String}
    (h : k ∈ odKeys m) : ∃ v, odLookup m k = some v := by
  cases hv : odLookup m k with
  | none =>
      induction m with
      | nil => simp [odKeys] at h
      | cons p rest ih =>
          obtain ⟨k0, v0⟩ := p
          by_cases h0 : k0 = k
          · subst h0; simp [odLookup] at hv
          · simp only [odLookup, if_neg h0] at hv
            simp only [odKeys, List.map_cons, List.mem_cons] at h
            exact ih (h.resolve_left (fun hh => h0 hh.symm)) hv
  | some v => exact ⟨v, rfl⟩

theorem odSet_of_not_mem {β : Type} {m : List (String × β)} {k : String} (v : β)
    (h : k ∉ odKeys m) : odSet m k v = m ++ [(k, v)] := by
  induction m with
  | nil => rfl
  | cons p rest ih =>
      obtain ⟨k0, v0⟩ := p
      simp only [odKeys, List.map_cons, List.mem_cons, not_or] at h
      have hne : ¬k0 = k := fun hh => h.1 hh.symm
      simp [odSet, hne, ih h.2]

theorem odKeys_odSet_of_mem {β : Type} {m : List (String × β)} {k : String} (v : β)
    (h : k ∈ odKeys m) : odKeys (odSet m k v) = odKeys m := by
  induction m with
  | nil => simp [odKeys] at h
  | cons p rest ih =>
      obtain ⟨k0, v0⟩ := p
      by_cases h0 : k0 = k
      · subst h0; simp [odSet, odKeys]
      · simp only [odKeys, List.map_cons, List.mem_cons] at h
        have hk : k ∈ odKeys rest := h.resolve_left (fun hh => h0 hh.symm)
        simp only [odSet, if_neg h0, odKeys, List.map_cons]
        exact congrArg (List.cons k0) (ih hk)

theorem nodupKeys_odSet {β : Type} {m : List (String × β)} {k : String} (v : β)
    (h : NodupKeys m) : NodupKeys (odSet m k v) := by
  by_cases hk : k ∈ odKeys m
  · show (odKeys (odSet m k v)).Nodup
    rw [odKeys_odSet_of_mem v hk]
    exact h
  · show (odKeys (odSet m k v)).Nodup
    rw [odSet_of_not_mem v hk]
    have h' : (odKeys m).Nodup := h
    show (List.map Prod.fst (m ++ [(k, v)])).Nodup
    rw [List.map_append, List.nodup_append]
    refine ⟨h', by simp, ?_⟩
    intro a ha hb
    simp only [List.map_cons, List.map_nil, List.mem_singleton] at hb
    subst hb
    exact hk ha

theorem odPop_eq_none_iff {β : Type} {m : List (String × β)} {k : String} :
    odPop m k = none ↔ k ∉ odKeys m := by
  induction m with
  | nil => simp [odPop, odKeys]
  | cons p rest ih =>
      obtain ⟨k0, v0⟩ := p
      by_cases h0 : k0 = k
      · subst h0; simp [odPop, odKeys]
      · simp only [odPop, if_neg h0, odKeys, List.map_cons, List.mem_cons]
        cases hp : odPop rest k with
        | none =>
            simp only [true_iff]
            exact fun hc => hc.elim (fun hh => h0 hh.symm) (ih.mp hp)
        | some r =>
            have hk : k ∈ odKeys rest := by
              by_contra hc
              exact absurd (ih.mpr hc) (by simp [hp])
            exact iff_of_false (by simp) (fun hc => hc (Or.inr hk))

theorem odPop_lookup {β : Type} {m : List (String × β)} {k : String} {v : β}
    {m' : List (String × β)} (h : odPop m k = some (v, m')) : odLookup m k = some v := by
  induction m generalizing m' with
  | nil => simp [odPop] at h
  | cons p rest ih =>
      obtain ⟨k0, v0⟩ := p
      by_cases h0 : k0 = k
      · simp only [odPop, if_pos h0] at h
        simp only [odLookup, if_pos h0]
        simp only [Option.some.injEq, Prod.mk.injEq] at h
        exact congrArg some h.1
      · simp only [odPop, if_neg h0] at h
        cases hp : odPop rest k with
        | none => rw [hp] at h; exact absurd h (by simp)
        | some r =>
            obtain ⟨v1, rest1⟩ := r
            rw [hp] at h
            simp only [Option.some.injEq, Prod.mk.injEq] at h
            simp only [odLookup, if_neg h0]
            rw [h.1] at hp
            exact ih hp

theorem odPop_rest {β : Type} {m : List (String × β)} {k : String} {v : β}
    {m' : List (String × β)} (hnd : NodupKeys m) (h : odPop m k = some (v, m')) :
    m' = m.filter (fun p => p.1 ≠ k) := by
  induction m generalizing m' with
  | nil => simp [odPop] at h
  | cons p rest ih =>
      obtain ⟨k0, v0⟩ := p
      have hnd' : NodupKeys rest := (List.nodup_cons.mp hnd).2
      by_cases h0 : k0 = k
      · subst h0
        simp [odPop] at h
        obtain ⟨h1, h2⟩ := h
        have hk : k0 ∉ odKeys rest := (List.nodup_cons.mp hnd).1
        have hrest : rest.filter (fun p => p.1 ≠ k0) = rest := by
          rw [List.filter_eq_self]
          intro a ha
          simp only [ne_eq, decide_not, Bool.not_eq_eq_eq_not, Bool.not_true,
            decide_eq_false_iff_not]
          intro hh
          exact hk (hh ▸ List.mem_map_of_mem Prod.fst ha)
        rw [← h2, List.filter_cons]
        rw [if_neg (by simp : ¬(decide (((k0, v0) : String × β).1 ≠ k0) = true))]
        exact hrest.symm
      · simp only [odPop, if_neg h0] at h
        cases hp : odPop rest k with
        | none => rw [hp] at h; exact absurd h (by simp)
        | some r =>
            obtain ⟨v1, rest1⟩ := r
            rw [hp] at h
            simp only [Option.some.injEq, Prod.mk.injEq] at h
            obtain ⟨h1, h2⟩ := h
            have hne : (k0 : String) ≠ k := h0
            rw [← h2]
            rw [h1] at hp
            simp [List.filter_cons, hne, ih hnd' hp]

theorem odPop_values_perm {β : Type} {m : List (String × β)} {k : String} {v : β}
    {m' : List (String × β)} (h : odPop m k = some (v, m')) :
    (odValues m).Perm (v :: odValues m') := by
  induction m generalizing m' with
  | nil => simp [odPop] at h
  | cons p rest ih =>
      obtain ⟨k0, v0⟩ := p
      by_cases h0 : k0 = k
      · simp only [odPop, if_pos h0] at h
        obtain ⟨h1, h2⟩ := Prod.mk.injEq .. ▸ Option.some.inj h
        rw [← h2, ← h1]
        simp [odValues]
      · simp only [odPop, if_neg h0] at h
        cases hp : odPop rest k with
        | none => rw [hp] at h; exact absurd h (by simp)
        | some r =>
            obtain ⟨v1, rest1⟩ := r
            rw [hp] at h
            simp only [Option.some.injEq, Prod.mk.injEq] at h
            obtain ⟨h1, h2⟩ := h
            rw [h1] at hp
            rw [← h2]
            simp only [odValues, List.map_cons]
            exact ((ih hp).cons v0).trans (List.Perm.swap v v0 _)

theorem odKeys_filter_key {β : Type} (m : List (String × β)) (q : String → Bool) :
    odKeys (m.filter (fun p => q p.1)) = (odKeys m).filter q := by
  induction m with
  | nil => rfl
  | cons p rest ih =>
      obtain ⟨k0, v0⟩ := p
      have ih' : List.map Prod.fst (List.filter (fun p => q p.1) rest) =
          List.filter q (List.map Prod.fst rest) := ih
      by_cases hq : q k0
      · simp [odKeys, List.filter_cons, hq, ih']
      · simp only [Bool.not_eq_true] at hq
        simp [odKeys, List.filter_cons, hq, ih']

theorem odLookup_filter_key_of_true {β : Type} {m : List (String × β)} {q : String → Bool}
    {k : String} (hq : q k = true) :
    odLookup (m.filter (fun p => q p.1)) k = odLookup m k := by
  induction m with
  | nil => rfl
  | cons p rest ih =>
      obtain ⟨k0, v0⟩ := p
      by_cases h0 : k0 = k
      · subst h0
        simp [List.filter_cons, hq, odLookup]
      · by_cases hq0 : q k0
        · simp [List.filter_cons, hq0, odLookup, h0, ih]
        · simp only [Bool.not_eq_true] at hq0
          simp [List.filter_cons, hq0, odLookup, h0, ih]

theorem odLookup_filter_key {β : Type} {m : List (String × β)} {q : String → Bool}
    {k : String} {v : β} (h : odLookup (m.filter (fun p => q p.1)) k = some v) :
    odLookup m k = some v := by
  by_cases hq : q k = true
  · rw [← odLookup_filter_key_of_true hq]; exact h
  · exfalso
    have hk : k ∈ odKeys (m.filter (fun p => q p.1)) := mem_odKeys_of_odLookup h
    rw [odKeys_filter_key] at hk
    exact hq (List.mem_filter.mp hk).2

theorem nodupKeys_filter_key {β : Type} {m : List (String × β)} (q : String → Bool)
    (h : NodupKeys m) : NodupKeys (m.filter (fun p => q p.1)) := by
  show (odKeys (m.filter (fun p => q p.1))).Nodup
  rw [odKeys_filter_key]
  exact List.Nodup.filter q h

/-! ### Lemmas on `odAddChild` -/

theorem odAddChild_lookup_self {m : Fieldsets} {g : String} {gv : Fieldset} (f : Field)
    (h : odLookup m g = some gv) :
    odLookup (odAddChild m g f) g = some { gv with children := gv.children ++ [f] } := by
  unfold odAddChild
  rw [h]
  exact odLookup_odSet_self m g _

theorem odAddChild_lookup_ne {m : Fieldsets} {g k : String} (f : Field) (h : k ≠ g) :
    odLookup (odAddChild m g f) k = odLookup m k := by
  unfold odAddChild
  cases hg : odLookup m g with
  | none => rfl
  | some gv => exact odLookup_odSet_ne m g k _ h

theorem odKeys_odAddChild (m : Fieldsets) (g : String) (f : Field) :
    odKeys (odAddChild m g f) = odKeys m := by
  unfold odAddChild
  cases hg : odLookup m g with
  | none => rfl
  | some gv => exact odKeys_odSet_of_mem _ (mem_odKeys_of_odLookup hg)

theorem allChildren_odSet_cons {β : Fieldset} {m : Fieldsets} {k : String} {old : Fieldset}
    (h : odLookup m k = some old) (hch : β.children = old.children) :
    allChildren (odSet m k β) = allChildren m := by
  induction m with
  | nil => simp [odLookup] at h
  | cons p rest ih =>
      obtain ⟨k0, v0⟩ := p
      by_cases h0 : k0 = k
      · subst h0
        simp [odLookup] at h
        subst h
        simp [odSet, allChildren, odValues, hch]
      · simp only [odLookup, if_neg h0] at h
        simp only [odSet, if_neg h0]
        simp only [allChildren, odValues, List.map_cons, List.flatten_cons]
        rw [show ((List.map Prod.snd (odSet rest k β)).map Fieldset.children).flatten =
          allChildren (odSet rest k β) from rfl, ih h]
        rfl

theorem odSet_cons_self {β : Type} (k : String) (v x : β) (rest : List (String × β)) :
    odSet ((k, v) :: rest) k x = (k, x) :: rest := by
  simp [odSet]

theorem odSet_cons_ne {β : Type} {k0 k : String} (v x : β) (rest : List (String × β))
    (h : ¬k0 = k) : odSet ((k0, v) :: rest) k x = (k0, v) :: odSet rest k x := by
  simp [odSet, h]

theorem allChildren_cons (k : String) (v : Fieldset) (rest : Fieldsets) :
    allChildren ((k, v) :: rest) = v.children ++ allChildren rest := rfl

theorem allChildren_odSet_addChild {m : Fieldsets} {g : String} {gv : Fieldset} (f : Field)
    (h : odLookup m g = some gv) :
    (allChildren (odSet m g { gv with children := gv.children ++ [f] })).Perm
      (f :: allChildren m) := by
  induction m with
  | nil => simp [odLookup] at h
  | cons p rest ih =>
      obtain ⟨k0, v0⟩ := p
      by_cases h0 : k0 = g
      · subst h0
        simp [odLookup] at h
        subst h
        rw [odSet_cons_self, allChildren_cons, allChildren_cons]
        have step : (v0.children ++ [f]) ++ allChildren rest =
            v0.children ++ (f :: allChildren rest) := by simp
        rw [show ({ v0 with children := v0.children ++ [f] } : Fieldset).children =
          v0.children ++ [f] from rfl, step]
        exact List.perm_middle
      · simp only [odLookup, if_neg h0] at h
        rw [odSet_cons_ne _ _ _ h0, allChildren_cons, allChildren_cons]
        refine (List.Perm.append_left v0.children (ih h)).trans ?_
        exact List.perm_middle

theorem allChildren_odAddChild {m : Fieldsets} {g : String} {gv : Fieldset} (f : Field)
    (h : odLookup m g = some gv) :
    (allChildren (odAddChild m g f)).Perm (f :: allChildren m) := by
  unfold odAddChild
  rw [h]
  exact allChildren_odSet_addChild f h

/-! ### Lemmas on `mergeFieldset` and `resolve_fieldset` -/

theorem mergeFieldset_children (fieldset : Fieldset) (sf : SchemaFieldset) :
    (mergeFieldset fieldset sf).children = fieldset.children := by
  unfold mergeFieldset
  cases sf.description <;> split_ifs <;> rfl

theorem mergeFieldset_name (fieldset : Fieldset) (sf : SchemaFieldset) :
    (mergeFieldset fieldset sf).name = fieldset.name := by
  unfold mergeFieldset
  cases sf.description <;> split_ifs <;> rfl

theorem mergeFieldset_label (fieldset : Fieldset) (sf : SchemaFieldset) :
    (mergeFieldset fieldset sf).label =
      if !labelEq sf.label fieldset.label && !labelEqStr sf.label fieldset.name
      then sf.label else fieldset.label := by
  unfold mergeFieldset
  cases sf.description <;> split_ifs <;> rfl

theorem mergeFieldset_description_some {sf : SchemaFieldset} {d : String}
    (fieldset : Fieldset) (h : sf.description = some d) :
    (mergeFieldset fieldset sf).description = some d := by
  unfold mergeFieldset
  rw [h]
  split_ifs <;> rfl

theorem mergeFieldset_description_none {sf : SchemaFieldset} (fieldset : Fieldset)
    (h : sf.description = none) :
    (mergeFieldset fieldset sf).description = fieldset.description := by
  unfold mergeFieldset
  rw [h]
  split_ifs <;> rfl

theorem mergeFieldset_order (fieldset : Fieldset) (sf : SchemaFieldset) :
    (mergeFieldset fieldset sf).order =
      if sf.order ≠ DEFAULT_ORDER then sf.order else fieldset.order := by
  unfold mergeFieldset
  cases sf.description <;> split_ifs <;> rfl

theorem resolve_fieldset_of_none {m : Fieldsets} {sf : SchemaFieldset}
    (h : odLookup m sf.name = none) :
    resolve_fieldset m sf = odSet m sf.name (newFieldset sf) := by
  unfold resolve_fieldset
  rw [h]

theorem resolve_fieldset_of_some {m : Fieldsets} {sf : SchemaFieldset} {old : Fieldset}
    (h : odLookup m sf.name = some old) :
    resolve_fieldset m sf = odSet m sf.name (mergeFieldset old sf) := by
  unfold resolve_fieldset
  rw [h]

theorem resolve_fieldset_lookup_ne {m : Fieldsets} {sf : SchemaFieldset} {k : String}
    (h : k ≠ sf.name) : odLookup (resolve_fieldset m sf) k = odLookup m k := by
  unfold resolve_fieldset
  cases odLookup m sf.name with
  | none => exact odLookup_odSet_ne m sf.name k _ h
  | some old => exact odLookup_odSet_ne m sf.name k _ h

theorem resolve_fieldset_lookup_self {m : Fieldsets} {sf : SchemaFieldset} :
    odLookup (resolve_fieldset m sf) sf.name =
      some (match odLookup m sf.name with
            | none => newFieldset sf
            | some old => mergeFieldset old sf) := by
  unfold resolve_fieldset
  cases odLookup m sf.name with
  | none => exact odLookup_odSet_self m sf.name _
  | some old => exact odLookup_odSet_self m sf.name _

theorem mem_odKeys_resolve_fieldset {m : Fieldsets} (sf : SchemaFieldset) {k : String}
    (h : k ∈ odKeys m) : k ∈ odKeys (resolve_fieldset m sf) := by
  unfold resolve_fieldset
  cases hl : odLookup m sf.name with
  | none =>
      have hn : sf.name ∉ odKeys m := fun hc =>
        absurd hl (by obtain ⟨v, hv⟩ := odLookup_isSome_of_mem hc; simp [hv])
      rw [odSet_of_not_mem _ hn, odKeys, List.map_append]
      exact List.mem_append_left _ h
  | some old =>
      rw [odKeys_odSet_of_mem _ (mem_odKeys_of_odLookup hl)]
      exact h

theorem self_mem_odKeys_resolve_fieldset (m : Fieldsets) (sf : SchemaFieldset) :
    sf.name ∈ odKeys (resolve_fieldset m sf) :=
  mem_odKeys_of_odLookup resolve_fieldset_lookup_self

theorem nodupKeys_resolve_fieldset {m : Fieldsets} (sf : SchemaFieldset)
    (h : NodupKeys m) : NodupKeys (resolve_fieldset m sf) := by
  unfold resolve_fieldset
  cases odLookup m sf.name with
  | none => exact nodupKeys_odSet _ h
  | some old => exact nodupKeys_odSet _ h

theorem allChildren_append (a b : Fieldsets) :
    allChildren (a ++ b) = allChildren a ++ allChildren b := by
  simp [allChildren, odValues]

theorem allChildren_resolve_fieldset (m : Fieldsets) (sf : SchemaFieldset) :
    allChildren (resolve_fieldset m sf) = allChildren m := by
  cases hl : odLookup m sf.name with
  | none =>
      rw [resolve_fieldset_of_none hl]
      have hn : sf.name ∉ odKeys m := fun hc =>
        absurd hl (by obtain ⟨v, hv⟩ := odLookup_isSome_of_mem hc; simp [hv])
      rw [odSet_of_not_mem _ hn, allChildren_append]
      simp [allChildren, odValues, newFieldset]
  | some old =>
      rw [resolve_fieldset_of_some hl]
      exact allChildren_odSet_cons hl (mergeFieldset_children old sf)

/-! ### Lemmas on `lookupAll` -/

theorem lookupAll_nil {β : Type} (m : List (String × β)) : lookupAll m [] = [] := rfl

theorem lookupAll_cons {β : Type} (m : List (String × β)) (n : String) (ns : List String) :
    lookupAll m (n :: ns) =
      match odLookup m n with
      | some v => v :: lookupAll m ns
      | none => lookupAll m ns := by
  cases h : odLookup m n with
  | none => simp [lookupAll, List.filterMap_cons, h]
  | some v => simp [lookupAll, List.filterMap_cons, h]

theorem mem_lookupAll {β : Type} {m : List (String × β)} {names : List String}
    {n : String} {v : β} (hn : n ∈ names) (h : odLookup m n = some v) :
    v ∈ lookupAll m names :=
  List.mem_filterMap.mpr ⟨n, hn, h⟩

theorem lookupAll_congr {β : Type} {m1 m2 : List (String × β)} {names : List String}
    (h : ∀ n ∈ names, odLookup m1 n = odLookup m2 n) :
    lookupAll m1 names = lookupAll m2 names := by
  induction names with
  | nil => rfl
  | cons n ns ih =>
      rw [lookupAll_cons, lookupAll_cons, h n (List.mem_cons_self n ns),
        ih (fun x hx => h x (List.mem_cons_of_mem n hx))]

/-! ### Lemmas on `addFields` -/

theorem addFields_cases (g : String) :
    ∀ (names : List String) (fs : Fieldsets) (fields : List (String × Field)),
      (∃ fs' fields', addFields fs g names fields = .ok (fs', fields')) ∨
      (∃ n ∈ names, addFields fs g names fields = .error (.MissingFieldError n))
  | [], fs, fields => Or.inl ⟨fs, fields, rfl⟩
  | n :: rest, fs, fields => by
      simp only [addFields]
      cases hp : odPop fields n with
      | none => exact Or.inr ⟨n, List.mem_cons_self n rest, rfl⟩
      | some r =>
          obtain ⟨f, frest⟩ := r
          cases addFields_cases g rest (odAddChild fs g f) frest with
          | inl hok => exact Or.inl hok
          | inr herr =>
              obtain ⟨x, hx, he⟩ := herr
              exact Or.inr ⟨x, List.mem_cons_of_mem n hx, he⟩

theorem addFields_ok_fields {g : String} :
    ∀ {names : List String} {fs : Fieldsets} {fields : List (String × Field)}
      {fs' : Fieldsets} {fields' : List (String × Field)},
      NodupKeys fields →
      addFields fs g names fields = .ok (fs', fields') →
      (names.Nodup ∧ ∀ n ∈ names, n ∈ odKeys fields) ∧
        fields' = fields.filter (fun p => p.1 ∉ names)
  | [], fs, fields, fs', fields', _, h => by
      simp only [addFields, Except.ok.injEq, Prod.mk.injEq] at h
      refine ⟨⟨List.nodup_nil, by simp⟩, ?_⟩
      rw [← h.2, List.filter_eq_self.mpr]
      intro a _
      simp
  | n :: rest, fs, fields, fs', fields', hnd, h => by
      simp only [addFields] at h
      cases hp : odPop fields n with
      | none => rw [hp] at h; exact absurd h (by simp)
      | some r =>
          obtain ⟨f, frest⟩ := r
          rw [hp] at h
          have hfrest : frest = fields.filter (fun p => p.1 ≠ n) := odPop_rest hnd hp
          have hndf : NodupKeys frest := by
            rw [hfrest]
            exact nodupKeys_filter_key (fun s => decide (s ≠ n)) hnd
          obtain ⟨⟨hndrest, hsub⟩, hflt⟩ := addFields_ok_fields hndf h
          have hkeys : odKeys frest = (odKeys fields).filter (fun s => s ≠ n) := by
            rw [hfrest]
            exact odKeys_filter_key fields (fun s => decide (s ≠ n))
          have hnotn : n ∉ rest := by
            intro hc
            have := hsub n hc
            rw [hkeys] at this
            simp at this
          refine ⟨⟨List.nodup_cons.mpr ⟨hnotn, hndrest⟩, ?_⟩, ?_⟩
          · intro x hx
            cases List.mem_cons.mp hx with
            | inl he => exact he ▸ mem_odKeys_of_odLookup (odPop_lookup hp)
            | inr hm =>
                have := hsub x hm
                rw [hkeys] at this
                exact (List.mem_filter.mp this).1
          · rw [hflt, hfrest, List.filter_filter]
            apply List.filter_congr
            intro a _
            by_cases han : a.1 = n
            · simp [han]
            · by_cases har : a.1 ∈ rest <;> simp [han, har]

theorem addFields_ok_fieldsets {g : String} :
    ∀ {names : List String} {fs : Fieldsets} {fields : List (String × Field)}
      {fs' : Fieldsets} {fields' : List (String × Field)} {gv : Fieldset},
      NodupKeys fields →
      odLookup fs g = some gv →
      addFields fs g names fields = .ok (fs', fields') →
      odKeys fs' = odKeys fs ∧
        (∀ k, k ≠ g → odLookup fs' k = odLookup fs k) ∧
        odLookup fs' g = some { gv with children := gv.children ++ lookupAll fields names }
  | [], fs, fields, fs', fields', gv, _, hg, h => by
      simp only [addFields, Except.ok.injEq, Prod.mk.injEq] at h
      rw [← h.1]
      exact ⟨rfl, fun k _ => rfl, by simpa [lookupAll_nil] using hg⟩
  | n :: rest, fs, fields, fs', fields', gv, hnd, hg, h => by
      simp only [addFields] at h
      cases hp : odPop fields n with
      | none => rw [hp] at h; exact absurd h (by simp)
      | some r =>
          obtain ⟨f, frest⟩ := r
          rw [hp] at h
          have hfrest : frest = fields.filter (fun p => p.1 ≠ n) := odPop_rest hnd hp
          have hndf : NodupKeys frest := by
            rw [hfrest]
            exact nodupKeys_filter_key (fun s => decide (s ≠ n)) hnd
          have hg1 : odLookup (odAddChild fs g f) g =
              some { gv with children := gv.children ++ [f] } :=
            odAddChild_lookup_self f hg
          obtain ⟨hkeys, hframe, hgfin⟩ := addFields_ok_fieldsets hndf hg1 h
          obtain ⟨⟨hndrest, hsub⟩, _⟩ := addFields_ok_fields hndf h
          have hkeysf : odKeys frest = (odKeys fields).filter (fun s => s ≠ n) := by
            rw [hfrest]
            exact odKeys_filter_key fields (fun s => decide (s ≠ n))
          have hlook : lookupAll frest rest = lookupAll fields rest := by
            apply lookupAll_congr
            intro x hx
            have hxn : x ≠ n := by
              have := hsub x hx
              rw [hkeysf] at this
              simpa using (List.mem_filter.mp this).2
            rw [hfrest]
            exact @odLookup_filter_key_of_true Field fields (fun s => decide (s ≠ n)) x
              (by simp [hxn])
          refine ⟨hkeys.trans (odKeys_odAddChild fs g f), ?_, ?_⟩
          · intro k hk
            rw [hframe k hk]
            exact odAddChild_lookup_ne f hk
          · rw [hgfin, hlook, lookupAll_cons, odPop_lookup hp]
            simp

theorem addFields_allChildren {g : String} :
    ∀ {names : List String} {fs : Fieldsets} {fields : List (String × Field)}
      {fs' : Fieldsets} {fields' : List (String × Field)},
      NodupKeys fields →
      g ∈ odKeys fs →
      addFields fs g names fields = .ok (fs', fields') →
      (allChildren fs' ++ odValues fields').Perm (allChildren fs ++ odValues fields)
  | [], fs, fields, fs', fields', _, _, h => by
      simp only [addFields, Except.ok.injEq, Prod.mk.injEq] at h
      rw [← h.1, ← h.2]
  | n :: rest, fs, fields, fs', fields', hnd, hg, h => by
      simp only [addFields] at h
      cases hp : odPop fields n with
      | none => rw [hp] at h; exact absurd h (by simp)
      | some r =>
          obtain ⟨f, frest⟩ := r
          rw [hp] at h
          have hfrest : frest = fields.filter (fun p => p.1 ≠ n) := odPop_rest hnd hp
          have hndf : NodupKeys frest := by
            rw [hfrest]
            exact nodupKeys_filter_key (fun s => decide (s ≠ n)) hnd
          have hg1 : g ∈ odKeys (odAddChild fs g f) := by
            rw [odKeys_odAddChild]
            exact hg
          have ihp := addFields_allChildren hndf hg1 h
          obtain ⟨gv, hgv⟩ := odLookup_isSome_of_mem hg
          have hadd := allChildren_odAddChild f hgv
          have hpop := odPop_values_perm hp
          refine ihp.trans ?_
          have step1 : (allChildren (odAddChild fs g f) ++ odValues frest).Perm
              ((f :: allChildren fs) ++ odValues frest) :=
            hadd.append_right (odValues frest)
          refine step1.trans ?_
          have step2 : (f :: (allChildren fs ++ odValues frest)).Perm
              (allChildren fs ++ (f :: odValues frest)) := List.perm_middle.symm
          have step3 : (allChildren fs ++ (f :: odValues frest)).Perm
              (allChildren fs ++ odValues fields) :=
            List.Perm.append_left _ hpop.symm
          exact step2.trans step3

theorem addFields_error {g : String} {names : List String} {fs : Fieldsets}
    {fields : List (String × Field)} (hnd : NodupKeys fields)
    (hbad : ¬(names.Nodup ∧ ∀ n ∈ names, n ∈ odKeys fields)) :
    ∃ n ∈ names, addFields fs g names fields = .error (.MissingFieldError n) := by
  cases addFields_cases g names fs fields with
  | inl hok =>
      obtain ⟨fs', fields', hok⟩ := hok
      exact absurd (addFields_ok_fields hnd hok).1 hbad
  | inr herr => exact herr

/-! ### Lemmas on `processFieldsets` -/

theorem declNames_cons (sf : SchemaFieldset) (rest : List SchemaFieldset) :
    declNames (sf :: rest) = sf.fields ++ declNames rest := by
  simp [declNames]

theorem processFieldsets_cases :
    ∀ (decls : List SchemaFieldset) (fs : Fieldsets) (fields : List (String × Field)),
      (∃ fs' fields', processFieldsets fs fields decls = .ok (fs', fields')) ∨
      (∃ n ∈ declNames decls, processFieldsets fs fields decls = .error (.MissingFieldError n))
  | [], fs, fields => Or.inl ⟨fs, fields, rfl⟩
  | sf :: rest, fs, fields => by
      simp only [processFieldsets]
      cases ha : addFields (resolve_fieldset fs sf) sf.name sf.fields fields with
      | error e =>
          cases addFields_cases sf.name sf.fields (resolve_fieldset fs sf) fields with
          | inl hok => obtain ⟨a, b, hok⟩ := hok; rw [hok] at ha; exact absurd ha (by simp)
          | inr herr =>
              obtain ⟨n, hn, he⟩ := herr
              rw [he] at ha
              refine Or.inr ⟨n, by rw [declNames_cons]; exact List.mem_append_left _ hn, ?_⟩
              rw [← Except.error.inj ha]
      | ok r =>
          obtain ⟨fs1, f1⟩ := r
          cases processFieldsets_cases rest fs1 f1 with
          | inl hok => exact Or.inl hok
          | inr herr =>
              obtain ⟨n, hn, he⟩ := herr
              exact Or.inr ⟨n, by rw [declNames_cons]; exact List.mem_append_right _ hn, he⟩

theorem processFieldsets_ok_fields :
    ∀ {decls : List SchemaFieldset} {fs : Fieldsets} {fields : List (String × Field)}
      {fs' : Fieldsets} {fields' : List (String × Field)},
      NodupKeys fields →
      processFieldsets fs fields decls = .ok (fs', fields') →
      ((declNames decls).Nodup ∧ ∀ n ∈ declNames decls, n ∈ odKeys fields) ∧
        fields' = fields.filter (fun p => p.1 ∉ declNames decls)
  | [], fs, fields, fs', fields', _, h => by
      simp only [processFieldsets, Except.ok.injEq, Prod.mk.injEq] at h
      refine ⟨⟨by simp [declNames], by simp [declNames]⟩, ?_⟩
      rw [← h.2, List.filter_eq_self.mpr]
      intro a _
      simp [declNames]
  | sf :: rest, fs, fields, fs', fields', hnd, h => by
      simp only [processFieldsets] at h
      cases ha : addFields (resolve_fieldset fs sf) sf.name sf.fields fields with
      | error e => rw [ha] at h; exact absurd h (by simp)
      | ok r =>
          obtain ⟨fs1, f1⟩ := r
          rw [ha] at h
          obtain ⟨⟨hnd1, hsub1⟩, hf1⟩ := addFields_ok_fields hnd ha
          have hndf1 : NodupKeys f1 := by
            rw [hf1]
            exact nodupKeys_filter_key (fun s => decide (s ∉ sf.fields)) hnd
          obtain ⟨⟨hnd2, hsub2⟩, hf2⟩ := processFieldsets_ok_fields hndf1 h
          have hkeys1 : odKeys f1 = (odKeys fields).filter (fun s => s ∉ sf.fields) := by
            rw [hf1]
            exact odKeys_filter_key fields (fun s => decide (s ∉ sf.fields))
      -- membership in the filtered working set splits into the two conditions
          have hmem : ∀ n ∈ declNames rest, n ∈ odKeys fields ∧ n ∉ sf.fields := by
            intro n hn
            have := hsub2 n hn
            rw [hkeys1] at this
            have hm := List.mem_filter.mp this
            exact ⟨hm.1, by simpa using hm.2⟩
          constructor
          · constructor
            · rw [declNames_cons, List.nodup_append]
              exact ⟨hnd1, hnd2, fun a ha1 ha2 => (hmem a ha2).2 ha1⟩
            · intro n hn
              rw [declNames_cons] at hn
              cases List.mem_append.mp hn with
              | inl h1 => exact hsub1 n h1
              | inr h2 => exact (hmem n h2).1
          · rw [hf2, hf1, List.filter_filter, declNames_cons]
            apply List.filter_congr
            intro a _
            by_cases h1 : a.1 ∈ sf.fields
            · simp [h1]
            · by_cases h2 : a.1 ∈ declNames rest <;> simp [h1, h2]

theorem processFieldsets_error {decls : List SchemaFieldset} {fs : Fieldsets}
    {fields : List (String × Field)} (hnd : NodupKeys fields)
    (hbad : ¬((declNames decls).Nodup ∧ ∀ n ∈ declNames decls, n ∈ odKeys fields)) :
    ∃ n ∈ declNames decls, processFieldsets fs fields decls = .error (.MissingFieldError n) := by
  cases processFieldsets_cases decls fs fields with
  | inl hok =>
      obtain ⟨fs', fields', hok⟩ := hok
      exact absurd (processFieldsets_ok_fields hnd hok).1 hbad
  | inr herr => exact herr

theorem addFields_keys {g : String} :
    ∀ {names : List String} {fs : Fieldsets} {fields : List (String × Field)}
      {fs' : Fieldsets} {fields' : List (String × Field)},
      addFields fs g names fields = .ok (fs', fields') →
      odKeys fs' = odKeys fs
  | [], fs, fields, fs', fields', h => by
      simp only [addFields, Except.ok.injEq, Prod.mk.injEq] at h
      rw [← h.1]
  | n :: rest, fs, fields, fs', fields', h => by
      simp only [addFields] at h
      cases hp : odPop fields n with
      | none => rw [hp] at h; exact absurd h (by simp)
      | some r =>
          obtain ⟨f, frest⟩ := r
          rw [hp] at h
          exact (addFields_keys h).trans (odKeys_odAddChild fs g f)

theorem odLookup_odSet_cases {β : Type} {m : List (String × β)} {k k' : String} {v v' : β}
    (h : odLookup (odSet m k v) k' = some v') :
    (k' = k ∧ v' = v) ∨ odLookup m k' = some v' := by
  by_cases he : k' = k
  · subst he
    rw [odLookup_odSet_self] at h
    exact Or.inl ⟨rfl, (Option.some.inj h).symm⟩
  · rw [odLookup_odSet_ne m k k' v he] at h
    exact Or.inr h

theorem namesMatch_odAddChild {m : Fieldsets} {g : String} (f : Field)
    (hm : NamesMatch m) : NamesMatch (odAddChild m g f) := by
  intro k v hk
  unfold odAddChild at hk
  cases hg : odLookup m g with
  | none => rw [hg] at hk; exact hm k v hk
  | some gv =>
      rw [hg] at hk
      cases odLookup_odSet_cases hk with
      | inl he =>
          obtain ⟨he1, he2⟩ := he
          subst he1
          rw [he2]
          exact hm k gv hg
      | inr ho => exact hm k v ho

theorem namesMatch_resolve_fieldset {m : Fieldsets} (sf : SchemaFieldset)
    (hm : NamesMatch m) : NamesMatch (resolve_fieldset m sf) := by
  intro k v hk
  cases hl : odLookup m sf.name with
  | none =>
      rw [resolve_fieldset_of_none hl] at hk
      cases odLookup_odSet_cases hk with
      | inl he =>
          obtain ⟨he1, he2⟩ := he
          subst he1
          rw [he2]
          rfl
      | inr ho => exact hm k v ho
  | some old =>
      rw [resolve_fieldset_of_some hl] at hk
      cases odLookup_odSet_cases hk with
      | inl he =>
          obtain ⟨he1, he2⟩ := he
          subst he1
          rw [he2, mergeFieldset_name]
          exact hm sf.name old hl
      | inr ho => exact hm k v ho

theorem namesMatch_addFields {g : String} :
    ∀ {names : List String} {fs : Fieldsets} {fields : List (String × Field)}
      {fs' : Fieldsets} {fields' : List (String × Field)},
      NamesMatch fs →
      addFields fs g names fields = .ok (fs', fields') →
      NamesMatch fs'
  | [], fs, fields, fs', fields', hm, h => by
      simp only [addFields, Except.ok.injEq, Prod.mk.injEq] at h
      rw [← h.1]
      exact hm
  | n :: rest, fs, fields, fs', fields', hm, h => by
      simp only [addFields] at h
      cases hp : odPop fields n with
      | none => rw [hp] at h; exact absurd h (by simp)
      | some r =>
          obtain ⟨f, frest⟩ := r
          rw [hp] at h
          exact namesMatch_addFields (namesMatch_odAddChild f hm) h

theorem processFieldsets_keys_mono :
    ∀ {decls : List SchemaFieldset} {fs : Fieldsets} {fields : List (String × Field)}
      {fs' : Fieldsets} {fields' : List (String × Field)},
      processFieldsets fs fields decls = .ok (fs', fields') →
      ∀ k ∈ odKeys fs, k ∈ odKeys fs'
  | [], fs, fields, fs', fields', h => by
      simp only [processFieldsets, Except.ok.injEq, Prod.mk.injEq] at h
      rw [← h.1]
      exact fun k hk => hk
  | sf :: rest, fs, fields, fs', fields', h => by
      simp only [processFieldsets] at h
      cases ha : addFields (resolve_fieldset fs sf) sf.name sf.fields fields with
      | error e => rw [ha] at h; exact absurd h (by simp)
      | ok r =>
          obtain ⟨fs1, f1⟩ := r
          rw [ha] at h
          intro k hk
          have h1 : k ∈ odKeys fs1 := by
            rw [addFields_keys ha]
            exact mem_odKeys_resolve_fieldset sf hk
          exact processFieldsets_keys_mono h k h1

theorem processFieldsets_namesMatch :
    ∀ {decls : List SchemaFieldset} {fs : Fieldsets} {fields : List (String × Field)}
      {fs' : Fieldsets} {fields' : List (String × Field)},
      NamesMatch fs →
      processFieldsets fs fields decls = .ok (fs', fields') →
      NamesMatch fs'
  | [], fs, fields, fs', fields', hm, h => by
      simp only [processFieldsets, Except.ok.injEq, Prod.mk.injEq] at h
      rw [← h.1]
      exact hm
  | sf :: rest, fs, fields, fs', fields', hm, h => by
      simp only [processFieldsets] at h
      cases ha : addFields (resolve_fieldset fs sf) sf.name sf.fields fields with
      | error e => rw [ha] at h; exact absurd h (by simp)
      | ok r =>
          obtain ⟨fs1, f1⟩ := r
          rw [ha] at h
          exact processFieldsets_namesMatch
            (namesMatch_addFields (namesMatch_resolve_fieldset sf hm) ha) h

theorem processFieldsets_nodupKeys :
    ∀ {decls : List SchemaFieldset} {fs : Fieldsets} {fields : List (String × Field)}
      {fs' : Fieldsets} {fields' : List (String × Field)},
      NodupKeys fs →
      processFieldsets fs fields decls = .ok (fs', fields') →
      NodupKeys fs'
  | [], fs, fields, fs', fields', hm, h => by
      simp only [processFieldsets, Except.ok.injEq, Prod.mk.injEq] at h
      rw [← h.1]
      exact hm
  | sf :: rest, fs, fields, fs', fields', hm, h => by
      simp only [processFieldsets] at h
      cases ha : addFields (resolve_fieldset fs sf) sf.name sf.fields fields with
      | error e => rw [ha] at h; exact absurd h (by simp)
      | ok r =>
          obtain ⟨fs1, f1⟩ := r
          rw [ha] at h
          have h1 : NodupKeys fs1 := by
            show (odKeys fs1).Nodup
            rw [addFields_keys ha]
            exact nodupKeys_resolve_fieldset sf hm
          exact processFieldsets_nodupKeys h1 h

theorem childExtends_refl (v : Fieldset) : ChildExtends v v :=
  ⟨rfl, [], by simp⟩

theorem childExtends_trans {a b c : Fieldset} (h1 : ChildExtends a b)
    (h2 : ChildExtends b c) : ChildExtends a c := by
  obtain ⟨hn1, t1, ht1⟩ := h1
  obtain ⟨hn2, t2, ht2⟩ := h2
  exact ⟨hn1.trans hn2, t2 ++ t1, by rw [ht1, ht2, List.append_assoc]⟩

theorem odAddChild_mono {fs : Fieldsets} {g : String} (f : Field) {k : String} {v : Fieldset}
    (h : odLookup fs k = some v) :
    ∃ v', odLookup (odAddChild fs g f) k = some v' ∧ ChildExtends v' v := by
  by_cases hk : k = g
  · subst hk
    refine ⟨{ v with children := v.children ++ [f] }, odAddChild_lookup_self f h, rfl, [f], rfl⟩
  · exact ⟨v, by rw [odAddChild_lookup_ne f hk]; exact h, childExtends_refl v⟩

theorem resolve_fieldset_mono {fs : Fieldsets} (sf : SchemaFieldset) {k : String} {v : Fieldset}
    (h : odLookup fs k = some v) :
    ∃ v', odLookup (resolve_fieldset fs sf) k = some v' ∧ ChildExtends v' v := by
  by_cases hk : k = sf.name
  · subst hk
    rw [resolve_fieldset_of_some h]
    refine ⟨mergeFieldset v sf, odLookup_odSet_self fs _ _, mergeFieldset_name v sf, [], ?_⟩
    rw [mergeFieldset_children]
    simp
  · exact ⟨v, by rw [resolve_fieldset_lookup_ne hk]; exact h, childExtends_refl v⟩

theorem addFields_mono {g : String} :
    ∀ {names : List String} {fs : Fieldsets} {fields : List (String × Field)}
      {fs' : Fieldsets} {fields' : List (String × Field)},
      addFields fs g names fields = .ok (fs', fields') →
      ∀ k v, odLookup fs k = some v →
        ∃ v', odLookup fs' k = some v' ∧ ChildExtends v' v
  | [], fs, fields, fs', fields', h => by
      simp only [addFields, Except.ok.injEq, Prod.mk.injEq] at h
      rw [← h.1]
      exact fun k v hv => ⟨v, hv, childExtends_refl v⟩
  | n :: rest, fs, fields, fs', fields', h => by
      simp only [addFields] at h
      cases hp : odPop fields n with
      | none => rw [hp] at h; exact absurd h (by simp)
      | some r =>
          obtain ⟨f, frest⟩ := r
          rw [hp] at h
          intro k v hv
          obtain ⟨v1, hv1, he1⟩ := odAddChild_mono f hv
          obtain ⟨v2, hv2, he2⟩ := addFields_mono h k v1 hv1
          exact ⟨v2, hv2, childExtends_trans he2 he1⟩

theorem addFields_frame {g : String} :
    ∀ {names : List String} {fs : Fieldsets} {fields : List (String × Field)}
      {fs' : Fieldsets} {fields' : List (String × Field)},
      addFields fs g names fields = .ok (fs', fields') →
      ∀ k, k ≠ g → odLookup fs' k = odLookup fs k
  | [], fs, fields, fs', fields', h => by
      simp only [addFields, Except.ok.injEq, Prod.mk.injEq] at h
      rw [← h.1]
      exact fun k _ => rfl
  | n :: rest, fs, fields, fs', fields', h => by
      simp only [addFields] at h
      cases hp : odPop fields n with
      | none => rw [hp] at h; exact absurd h (by simp)
      | some r =>
          obtain ⟨f, frest⟩ := r
          rw [hp] at h
          intro k hk
          rw [addFields_frame h k hk]
          exact odAddChild_lookup_ne f hk

theorem processFieldsets_mono :
    ∀ {decls : List SchemaFieldset} {fs : Fieldsets} {fields : List (String × Field)}
      {fs' : Fieldsets} {fields' : List (String × Field)},
      processFieldsets fs fields decls = .ok (fs', fields') →
      ∀ k v, odLookup fs k = some v →
        ∃ v', odLookup fs' k = some v' ∧ ChildExtends v' v
  | [], fs, fields, fs', fields', h => by
      simp only [processFieldsets, Except.ok.injEq, Prod.mk.injEq] at h
      rw [← h.1]
      exact fun k v hv => ⟨v, hv, childExtends_refl v⟩
  | sf :: rest, fs, fields, fs', fields', h => by
      simp only [processFieldsets] at h
      cases ha : addFields (resolve_fieldset fs sf) sf.name sf.fields fields with
      | error e => rw [ha] at h; exact absurd h (by simp)
      | ok r =>
          obtain ⟨fs1, f1⟩ := r
          rw [ha] at h
          intro k v hv
          obtain ⟨v1, hv1, he1⟩ := resolve_fieldset_mono sf hv
          obtain ⟨v2, hv2, he2⟩ := addFields_mono ha k v1 hv1
          obtain ⟨v3, hv3, he3⟩ := processFieldsets_mono h k v2 hv2
          exact ⟨v3, hv3, childExtends_trans (childExtends_trans he3 he2) he1⟩

theorem processFieldsets_frame :
    ∀ {decls : List SchemaFieldset} {fs : Fieldsets} {fields : List (String × Field)}
      {fs' : Fieldsets} {fields' : List (String × Field)} {k : String},
      processFieldsets fs fields decls = .ok (fs', fields') →
      (∀ sf ∈ decls, sf.name ≠ k) →
      odLookup fs' k = odLookup fs k
  | [], fs, fields, fs', fields', k, h, _ => by
      simp only [processFieldsets, Except.ok.injEq, Prod.mk.injEq] at h
      rw [← h.1]
  | sf :: rest, fs, fields, fs', fields', k, h, hdecl => by
      simp only [processFieldsets] at h
      cases ha : addFields (resolve_fieldset fs sf) sf.name sf.fields fields with
      | error e => rw [ha] at h; exact absurd h (by simp)
      | ok r =>
          obtain ⟨fs1, f1⟩ := r
          rw [ha] at h
          have hne : k ≠ sf.name :=
            fun hc => (hdecl sf (List.mem_cons_self sf rest)) hc.symm
          rw [processFieldsets_frame h (fun x hx => hdecl x (List.mem_cons_of_mem sf hx)),
            addFields_frame ha k hne]
          exact resolve_fieldset_lookup_ne hne

theorem processFieldsets_allChildren :
    ∀ {decls : List SchemaFieldset} {fs : Fieldsets} {fields : List (String × Field)}
      {fs' : Fieldsets} {fields' : List (String × Field)},
      NodupKeys fields →
      processFieldsets fs fields decls = .ok (fs', fields') →
      (allChildren fs' ++ odValues fields').Perm (allChildren fs ++ odValues fields)
  | [], fs, fields, fs', fields', _, h => by
      simp only [processFieldsets, Except.ok.injEq, Prod.mk.injEq] at h
      rw [← h.1, ← h.2]
  | sf :: rest, fs, fields, fs', fields', hnd, h => by
      simp only [processFieldsets] at h
      cases ha : addFields (resolve_fieldset fs sf) sf.name sf.fields fields with
      | error e => rw [ha] at h; exact absurd h (by simp)
      | ok r =>
          obtain ⟨fs1, f1⟩ := r
          rw [ha] at h
          obtain ⟨_, hf1⟩ := addFields_ok_fields hnd ha
          have hnd1 : NodupKeys f1 := by
            rw [hf1]
            exact nodupKeys_filter_key (fun s => decide (s ∉ sf.fields)) hnd
          have step := addFields_allChildren hnd (self_mem_odKeys_resolve_fieldset fs sf) ha
          have ihp := processFieldsets_allChildren hnd1 h
          refine (ihp.trans step).trans ?_
          rw [allChildren_resolve_fieldset]

theorem processFieldsets_member :
    ∀ {decls : List SchemaFieldset} {fs : Fieldsets} {fields : List (String × Field)}
      {fs' : Fieldsets} {fields' : List (String × Field)},
      NodupKeys fields →
      processFieldsets fs fields decls = .ok (fs', fields') →
      ∀ sf0 ∈ decls, ∀ n ∈ sf0.fields,
        ∃ f, odLookup fields n = some f ∧
          ∃ gv, odLookup fs' sf0.name = some gv ∧ f ∈ gv.children
  | [], fs, fields, fs', fields', _, _, sf0, h0 => by simp at h0
  | sf :: rest, fs, fields, fs', fields', hnd, h, sf0, h0 => by
      simp only [processFieldsets] at h
      cases ha : addFields (resolve_fieldset fs sf) sf.name sf.fields fields with
      | error e => rw [ha] at h; exact absurd h (by simp)
      | ok r =>
          obtain ⟨fs1, f1⟩ := r
          rw [ha] at h
          obtain ⟨⟨_, hsub⟩, hf1⟩ := addFields_ok_fields hnd ha
          have hnd1 : NodupKeys f1 := by
            rw [hf1]
            exact nodupKeys_filter_key (fun s => decide (s ∉ sf.fields)) hnd
          cases List.mem_cons.mp h0 with
          | inl heq =>
              subst heq
              intro n hn
              obtain ⟨f, hf⟩ := odLookup_isSome_of_mem (hsub n hn)
              refine ⟨f, hf, ?_⟩
              have hgvr := @resolve_fieldset_lookup_self fs sf0
              obtain ⟨_, _, hg1⟩ := addFields_ok_fieldsets hnd hgvr ha
              obtain ⟨v', hv', hne, t, ht⟩ := processFieldsets_mono h sf0.name _ hg1
              refine ⟨v', hv', ?_⟩
              rw [ht]
              refine List.mem_append_left _ ?_
              exact List.mem_append_right _ (mem_lookupAll hn hf)
          | inr hmem =>
              intro n hn
              obtain ⟨f, hf, gv, hgv, hch⟩ :=
                processFieldsets_member hnd1 h sf0 hmem n hn
              rw [hf1] at hf
              exact ⟨f, @odLookup_filter_key Field fields
                (fun s => decide (s ∉ sf.fields)) n f hf, gv, hgv, hch⟩

/-! ### Lemmas on `addRemaining` -/

theorem addRemaining_nil (fs : Fieldsets) : addRemaining fs [] = fs := rfl

theorem addRemaining_cons (fs : Fieldsets) (p : String × Field)
    (rem : List (String × Field)) :
    addRemaining fs (p :: rem) = addRemaining (odAddChild fs "default" p.2) rem := rfl

theorem addRemaining_keys :
    ∀ (rem : List (String × Field)) (fs : Fieldsets),
      odKeys (addRemaining fs rem) = odKeys fs
  | [], fs => rfl
  | p :: rem, fs => by
      rw [addRemaining_cons, addRemaining_keys rem, odKeys_odAddChild]

theorem addRemaining_lookup_ne :
    ∀ {rem : List (String × Field)} {fs : Fieldsets} {k : String}, k ≠ "default" →
      odLookup (addRemaining fs rem) k = odLookup fs k
  | [], fs, k, _ => rfl
  | p :: rem, fs, k, hk => by
      rw [addRemaining_cons, addRemaining_lookup_ne hk]
      exact odAddChild_lookup_ne p.2 hk

theorem addRemaining_default :
    ∀ {rem : List (String × Field)} {fs : Fieldsets} {d : Fieldset},
      odLookup fs "default" = some d →
      odLookup (addRemaining fs rem) "default" =
        some { d with children := d.children ++ odValues rem }
  | [], fs, d, h => by simpa [addRemaining_nil, odValues] using h
  | p :: rem, fs, d, h => by
      rw [addRemaining_cons, addRemaining_default (odAddChild_lookup_self p.2 h)]
      simp [odValues]

theorem addRemaining_allChildren :
    ∀ {rem : List (String × Field)} {fs : Fieldsets} {d : Fieldset},
      odLookup fs "default" = some d →
      (allChildren (addRemaining fs rem)).Perm (allChildren fs ++ odValues rem)
  | [], fs, d, _ => by simp [addRemaining_nil, odValues]
  | p :: rem, fs, d, h => by
      rw [addRemaining_cons]
      have h1 := odAddChild_lookup_self p.2 h
      have ihp := @addRemaining_allChildren rem (odAddChild fs "default" p.2) _ h1
      refine ihp.trans ?_
      have step := (allChildren_odAddChild p.2 h).append_right (odValues rem)
      refine step.trans ?_
      have step2 : (p.2 :: (allChildren fs ++ odValues rem)).Perm
          (allChildren fs ++ (p.2 :: odValues rem)) := List.perm_middle.symm
      exact step2

theorem addRemaining_namesMatch :
    ∀ {rem : List (String × Field)} {fs : Fieldsets},
      NamesMatch fs → NamesMatch (addRemaining fs rem)
  | [], fs, hm => hm
  | p :: rem, fs, hm => by
      rw [addRemaining_cons]
      exact addRemaining_namesMatch (namesMatch_odAddChild p.2 hm)

theorem addRemaining_mono :
    ∀ {rem : List (String × Field)} {fs : Fieldsets} {k : String} {v : Fieldset},
      odLookup fs k = some v →
      ∃ v', odLookup (addRemaining fs rem) k = some v' ∧ ChildExtends v' v
  | [], fs, k, v, h => ⟨v, h, childExtends_refl v⟩
  | p :: rem, fs, k, v, h => by
      rw [addRemaining_cons]
      obtain ⟨v1, hv1, he1⟩ := odAddChild_mono p.2 h
      obtain ⟨v2, hv2, he2⟩ := addRemaining_mono hv1
      exact ⟨v2, hv2, childExtends_trans he2 he1⟩

/-! ### Lemmas on `buildFields` -/

theorem buildFields_nodupKeys {schemaId : Nat} {b : Bool}
    {widgets : List (String × RawWidget)} :
    ∀ {lst : List (String × SchemaField)} {acc flds : List (String × Field)},
      NodupKeys acc →
      buildFields schemaId b widgets lst acc = .ok flds →
      NodupKeys flds
  | [], acc, flds, hnd, h => by
      simp only [buildFields, Except.ok.injEq] at h
      rw [← h]
      exact hnd
  | (name, sf) :: rest, acc, flds, hnd, h => by
      simp only [buildFields] at h
      cases hw : resolve_widget (odLookup widgets name) with
      | error e => rw [hw] at h; exact absurd h (by simp)
      | ok w =>
          rw [hw] at h
          exact buildFields_nodupKeys (nodupKeys_odSet _ hnd) h

/-! ### Lemmas on `processSchema` and `processSchemata` -/

theorem processSchema_ok_iff (fs : Fieldsets) (schema : Schema) (b : Bool)
    (m' : Fieldsets) :
    processSchema fs schema b = .ok m' ↔
      ∃ flds r,
        buildFields schema.id b schema.widgets schema.fieldsInOrder [] = .ok flds ∧
        processFieldsets fs flds schema.schema_fieldsets = .ok r ∧
        m' = addRemaining r.1 r.2 := by
  unfold processSchema
  cases hb : buildFields schema.id b schema.widgets schema.fieldsInOrder [] with
  | error e => simp [hb]
  | ok flds =>
      cases hpf : processFieldsets fs flds schema.schema_fieldsets with
      | error e => simp [hpf]
      | ok r =>
          obtain ⟨fs1, rem⟩ := r
          simp [hpf]
          aesop

theorem processSchema_WF {fs : Fieldsets} {schema : Schema} {b : Bool} {m' : Fieldsets}
    (hwf : WF fs) (h : processSchema fs schema b = .ok m') : WF m' := by
  obtain ⟨hnd, hnm, hdef⟩ := hwf
  rw [processSchema_ok_iff] at h
  obtain ⟨flds, r, hb, hpf, hm⟩ := h
  subst hm
  refine ⟨?_, ?_, ?_⟩
  · show (odKeys (addRemaining r.1 r.2)).Nodup
    rw [addRemaining_keys]
    exact processFieldsets_nodupKeys hnd hpf
  · exact addRemaining_namesMatch (processFieldsets_namesMatch hnm hpf)
  · rw [addRemaining_keys]
    exact processFieldsets_keys_mono hpf _ hdef

theorem processSchema_keys_mono {fs : Fieldsets} {schema : Schema} {b : Bool}
    {m' : Fieldsets} {k : String} (h : processSchema fs schema b = .ok m')
    (hk : k ∈ odKeys fs) : k ∈ odKeys m' := by
  rw [processSchema_ok_iff] at h
  obtain ⟨flds, r, hb, hpf, hm⟩ := h
  subst hm
  rw [addRemaining_keys]
  exact processFieldsets_keys_mono hpf _ hk

theorem processSchema_default_attrs {fs : Fieldsets} {schema : Schema} {b : Bool}
    {m' : Fieldsets} {d : Fieldset} (h : processSchema fs schema b = .ok m')
    (hno : ∀ sf ∈ schema.schema_fieldsets, sf.name ≠ "default")
    (hd : odLookup fs "default" = some d) :
    ∃ d', odLookup m' "default" = some d' ∧ d'.label = d.label ∧
      d'.order = d.order ∧ d'.description = d.description ∧ d'.name = d.name := by
  rw [processSchema_ok_iff] at h
  obtain ⟨flds, r, hb, hpf, hm⟩ := h
  subst hm
  have hmid : odLookup r.1 "default" = some d := by
    rw [processFieldsets_frame hpf hno]
    exact hd
  exact ⟨{ d with children := d.children ++ odValues r.2 },
    addRemaining_default hmid, rfl, rfl, rfl, rfl⟩

theorem processSchemata_append :
    ∀ (xs : List Schema) (ys : List Schema) (fs : Fieldsets) (idx : Nat),
      processSchemata fs idx (xs ++ ys) =
        match processSchemata fs idx xs with
        | .error e => .error e
        | .ok m => processSchemata m (idx + xs.length) ys
  | [], ys, fs, idx => by simp [processSchemata]
  | x :: xs, ys, fs, idx => by
      simp only [List.cons_append, processSchemata]
      cases hx : processSchema fs x (idx != 0) with
      | error e => rfl
      | ok m1 =>
          show processSchemata m1 (idx + 1) (xs ++ ys) =
            match processSchemata m1 (idx + 1) xs with
            | .error e => .error e
            | .ok m => processSchemata m (idx + (x :: xs).length) ys
          rw [processSchemata_append xs ys m1 (idx + 1)]
          have harith : idx + 1 + xs.length = idx + (x :: xs).length := by
            simp only [List.length_cons]
            omega
          rw [harith]

theorem processSchemata_WF :
    ∀ {schemata : List Schema} {fs : Fieldsets} {idx : Nat} {m' : Fieldsets},
      WF fs →
      processSchemata fs idx schemata = .ok m' →
      WF m'
  | [], fs, idx, m', hwf, h => by
      simp only [processSchemata, Except.ok.injEq] at h
      rw [← h]
      exact hwf
  | s :: rest, fs, idx, m', hwf, h => by
      simp only [processSchemata] at h
      cases hx : processSchema fs s (idx != 0) with
      | error e => rw [hx] at h; exact absurd h (by simp)
      | ok m1 =>
          rw [hx] at h
          exact processSchemata_WF (processSchema_WF hwf hx) h

theorem processSchemata_default_attrs :
    ∀ {schemata : List Schema} {fs : Fieldsets} {idx : Nat} {m' : Fieldsets} {d : Fieldset},
      (∀ schema ∈ schemata, ∀ sf ∈ schema.schema_fieldsets, sf.name ≠ "default") →
      odLookup fs "default" = some d →
      processSchemata fs idx schemata = .ok m' →
      ∃ d', odLookup m' "default" = some d' ∧ d'.label = d.label ∧
        d'.order = d.order ∧ d'.description = d.description ∧ d'.name = d.name
  | [], fs, idx, m', d, _, hd, h => by
      simp only [processSchemata, Except.ok.injEq] at h
      rw [← h]
      exact ⟨d, hd, rfl, rfl, rfl, rfl⟩
  | s :: rest, fs, idx, m', d, hno, hd, h => by
      simp only [processSchemata] at h
      cases hx : processSchema fs s (idx != 0) with
      | error e => rw [hx] at h; exact absurd h (by simp)
      | ok m1 =>
          rw [hx] at h
          obtain ⟨d1, hd1, hl1, ho1, hde1, hn1⟩ :=
            processSchema_default_attrs hx (hno s (List.mem_cons_self s rest)) hd
          obtain ⟨d2, hd2, hl2, ho2, hde2, hn2⟩ :=
            processSchemata_default_attrs
              (fun x hx2 => hno x (List.mem_cons_of_mem s hx2)) hd1 h
          exact ⟨d2, hd2, hl2.trans hl1, ho2.trans ho1, hde2.trans hde1, hn2.trans hn1⟩

theorem WF_initialFieldsets : WF initialFieldsets := by
  refine ⟨by simp [NodupKeys, odKeys, initialFieldsets], ?_, by simp [odKeys, initialFieldsets]⟩
  intro k v hk
  simp only [initialFieldsets, odLookup] at hk
  by_cases he : "default" = k
  · rw [if_pos he] at hk
    rw [← Option.some.inj hk, ← he]
    rfl
  · rw [if_neg he] at hk
    exact absurd hk (by simp)

/-! ### Remaining support lemmas -/

theorem odLookup_mem_odValues {β : Type} {m : List (String × β)} {k : String} {v : β}
    (h : odLookup m k = some v) : v ∈ odValues m := by
  induction m with
  | nil => simp [odLookup] at h
  | cons p rest ih =>
      obtain ⟨k0, v0⟩ := p
      by_cases h0 : k0 = k
      · simp only [odLookup, if_pos h0] at h
        rw [← Option.some.inj h]
        simp [odValues]
      · simp only [odLookup, if_neg h0] at h
        simp only [odValues, List.map_cons, List.mem_cons]
        exact Or.inr (ih h)

theorem labelEq_refl (l : Option Label) : labelEq l l = true := by
  cases l with
  | none => rfl
  | some a => simp [labelEq]

theorem mergeFieldset_label_idem (old : Fieldset) (sf : SchemaFieldset) :
    (mergeFieldset (mergeFieldset old sf) sf).label = (mergeFieldset old sf).label := by
  rw [mergeFieldset_label (mergeFieldset old sf) sf, mergeFieldset_name]
  rw [show (mergeFieldset old sf).label =
    (if !labelEq sf.label old.label && !labelEqStr sf.label old.name
     then sf.label else old.label) from mergeFieldset_label old sf]
  by_cases hc : (!labelEq sf.label old.label && !labelEqStr sf.label old.name) = true
  · rw [if_pos hc, if_neg]
    simp [labelEq_refl]
  · rw [if_neg hc, if_neg hc]

theorem processSchema_pf_error {fs : Fieldsets} {schema : Schema} {b : Bool}
    {flds : List (String × Field)} {e : ResolveError}
    (hb : buildFields schema.id b schema.widgets schema.fieldsInOrder [] = .ok flds)
    (hpf : processFieldsets fs flds schema.schema_fieldsets = .error e) :
    processSchema fs schema b = .error e := by
  unfold processSchema
  rw [hb]
  simp [hpf]

theorem resolve_schemata_ok_of {vorder : Fieldsets → List Fieldset}
    {schemata : List Schema} {m : Fieldsets}
    (h : processSchemata initialFieldsets 0 schemata = .ok m) :
    resolve_schemata vorder schemata =
      .ok (List.insertionSort orderLe (vorder m)) := by
  unfold resolve_schemata
  rw [h]

theorem eval_sort_of_perm {β : Type} (L : List Fieldset) (F : List Fieldset → β) (y : β)
    (hall : ∀ l0 ∈ L.permutations', F (List.insertionSort orderLe l0) = y)
    {l : List Fieldset} (hl : l.Perm L) : F (List.insertionSort orderLe l) = y :=
  hall l (List.mem_permutations'.mpr hl)

/-! ### The claims -/

/-- C5: when `resolve_fieldset` merges a redeclaration of an existing
group, the label is updated to the new label exactly when the new label
differs (Python equality) from the current label and from the group's own
name; and re-merging the same declaration twice leaves the label
unchanged. -/
theorem claim_C5 (fs : Fieldsets) (sf : SchemaFieldset) (old : Fieldset)
    (h : odLookup fs sf.name = some old) :
    odLookup (resolve_fieldset fs sf) sf.name = some (mergeFieldset old sf) ∧
    ((mergeFieldset old sf).label =
      if !labelEq sf.label old.label && !labelEqStr sf.label old.name
      then sf.label else old.label) ∧
    (odLookup (resolve_fieldset (resolve_fieldset fs sf) sf) sf.name).map Fieldset.label =
      (odLookup (resolve_fieldset fs sf) sf.name).map Fieldset.label := by
  have h1 : odLookup (resolve_fieldset fs sf) sf.name = some (mergeFieldset old sf) := by
    rw [resolve_fieldset_of_some h]
    exact odLookup_odSet_self fs sf.name _
  refine ⟨h1, mergeFieldset_label old sf, ?_⟩
  have h2 : odLookup (resolve_fieldset (resolve_fieldset fs sf) sf) sf.name =
      some (mergeFieldset (mergeFieldset old sf) sf) := by
    rw [resolve_fieldset_of_some h1]
    exact odLookup_odSet_self _ sf.name _
  rw [h1, h2]
  simp [mergeFieldset_label_idem]

/-- C5 witness: merging a concrete redeclaration of the `"default"`
group. -/
theorem claim_C5_witness :
    odLookup
        (resolve_fieldset initialFieldsets
          { name := "default", label := some (.plain "Main"), description := none,
            order := DEFAULT_ORDER, fields := [] })
        "default" =
      some (mergeFieldset defaultFieldset
        { name := "default", label := some (.plain "Main"), description := none,
          order := DEFAULT_ORDER, fields := [] }) ∧
    ((mergeFieldset defaultFieldset
        { name := "default", label := some (.plain "Main"), description := none,
          order := DEFAULT_ORDER, fields := [] }).label =
      if !labelEq (some (.plain "Main")) defaultFieldset.label &&
          !labelEqStr (some (.plain "Main")) defaultFieldset.name
      then some (.plain "Main") else defaultFieldset.label) ∧
    (odLookup
        (resolve_fieldset
          (resolve_fieldset initialFieldsets
            { name := "default", label := some (.plain "Main"), description := none,
              order := DEFAULT_ORDER, fields := [] })
          { name := "default", label := some (.plain "Main"), description := none,
            order := DEFAULT_ORDER, fields := [] })
        "default").map Fieldset.label =
      (odLookup
        (resolve_fieldset initialFieldsets
          { name := "default", label := some (.plain "Main"), description := none,
            order := DEFAULT_ORDER, fields := [] })
        "default").map Fieldset.label :=
  claim_C5 initialFieldsets
    { name := "default", label := some (.plain "Main"), description := none,
      order := DEFAULT_ORDER, fields := [] } defaultFieldset (by decide)

/-- C6: the order of an existing group is updated by a redeclaration
exactly when the redeclared order is not the unset sentinel (last explicit
order wins); in the concrete two-schema scenario, group `"g"` is first
declared with unset order and then redeclared with order 5, and for every
admissible enumeration of the map's values the output places it by the
value 5 (after order 3, despite `"g"` being inserted into the map before
`"h"`). -/
theorem claim_C6 (fs : Fieldsets) (sf : SchemaFieldset) (old : Fieldset)
    (h : odLookup fs sf.name = some old) :
    odLookup (resolve_fieldset fs sf) sf.name = some (mergeFieldset old sf) ∧
    ((mergeFieldset old sf).order =
      if sf.order ≠ DEFAULT_ORDER then sf.order else old.order) ∧
    (∀ vorder, IsValuesEnum vorder →
      (resolve_schemata vorder [schemaOrderA, schemaOrderB]).map
        (fun l => (l.filter (fun fs0 => fs0.order ≠ DEFAULT_ORDER)).map
          (fun fs0 => (fs0.name, fs0.order))) = .ok [("h", 3), ("g", 5)]) := by
  refine ⟨?_, mergeFieldset_order old sf, ?_⟩
  · rw [resolve_fieldset_of_some h]
    exact odLookup_odSet_self fs sf.name _
  · intro vorder hv
    rw [resolve_schemata_ok_of
      (show processSchemata initialFieldsets 0 [schemaOrderA, schemaOrderB] =
        .ok ordersMap from by decide)]
    have heval := eval_sort_of_perm (odValues ordersMap)
      (fun l => (l.filter (fun fs0 => fs0.order ≠ DEFAULT_ORDER)).map
        (fun fs0 => (fs0.name, fs0.order)))
      [("h", 3), ("g", 5)] (by decide) (hv ordersMap)
    simp only [Except.map]
    exact congrArg Except.ok heval

/-- C6 witness: a concrete merge carrying an explicit order. -/
theorem claim_C6_witness :
    odLookup
        (resolve_fieldset initialFieldsets
          { name := "default", label := none, description := none,
            order := 5, fields := [] })
        "default" =
      some (mergeFieldset defaultFieldset
        { name := "default", label := none, description := none,
          order := 5, fields := [] }) ∧
    ((mergeFieldset defaultFieldset
        { name := "default", label := none, description := none,
          order := 5, fields := [] }).order =
      if (5 : Int) ≠ DEFAULT_ORDER then 5 else defaultFieldset.order) ∧
    (∀ vorder, IsValuesEnum vorder →
      (resolve_schemata vorder [schemaOrderA, schemaOrderB]).map
        (fun l => (l.filter (fun fs0 => fs0.order ≠ DEFAULT_ORDER)).map
          (fun fs0 => (fs0.name, fs0.order))) = .ok [("h", 3), ("g", 5)]) :=
  claim_C6 initialFieldsets
    { name := "default", label := none, description := none, order := 5, fields := [] }
    defaultFieldset (by decide)

/-- C7: the description of an existing group is overwritten by a
redeclaration whenever the redeclared description is present, so the last
present description wins; in the concrete scenario with two schemas both
declaring group `"info"` with different descriptions, the final group
carries the second schema's description and the combined children with the
primary schema's members first. -/
theorem claim_C7 (fs : Fieldsets) (sf : SchemaFieldset) (old : Fieldset)
    (h : odLookup fs sf.name = some old) :
    odLookup (resolve_fieldset fs sf) sf.name = some (mergeFieldset old sf) ∧
    ((mergeFieldset old sf).description =
      if sf.description = none then old.description else sf.description) ∧
    (∀ vorder, IsValuesEnum vorder →
      (resolve_schemata vorder [schemaInfoA, schemaInfoB]).map
        (fun l => (l.filter (fun fs0 => fs0.name = "info")).map
          (fun fs0 => (fs0.description, fs0.children.map Field.name))) =
      .ok [(some "two", ["a", "b"])]) := by
  refine ⟨?_, ?_, ?_⟩
  · rw [resolve_fieldset_of_some h]
    exact odLookup_odSet_self fs sf.name _
  · cases hd : sf.description with
    | none => simp [mergeFieldset_description_none old hd, hd]
    | some d => simp [mergeFieldset_description_some old hd, hd]
  · intro vorder hv
    rw [resolve_schemata_ok_of
      (show processSchemata initialFieldsets 0 [schemaInfoA, schemaInfoB] =
        .ok infoMap from by decide)]
    have heval := eval_sort_of_perm (odValues infoMap)
      (fun l => (l.filter (fun fs0 => fs0.name = "info")).map
        (fun fs0 => (fs0.description, fs0.children.map Field.name)))
      [(some "two", ["a", "b"])] (by decide) (hv infoMap)
    simp only [Except.map]
    exact congrArg Except.ok heval

/-- C7 witness: a concrete merge carrying a present description. -/
theorem claim_C7_witness :
    odLookup
        (resolve_fieldset initialFieldsets
          { name := "default", label := none, description := some "two",
            order := DEFAULT_ORDER, fields := [] })
        "default" =
      some (mergeFieldset defaultFieldset
        { name := "default", label := none, description := some "two",
          order := DEFAULT_ORDER, fields := [] }) ∧
    ((mergeFieldset defaultFieldset
        { name := "default", label := none, description := some "two",
          order := DEFAULT_ORDER, fields := [] }).description =
      if (some "two" : Option String) = none then defaultFieldset.description
      else some "two") ∧
    (∀ vorder, IsValuesEnum vorder →
      (resolve_schemata vorder [schemaInfoA, schemaInfoB]).map
        (fun l => (l.filter (fun fs0 => fs0.name = "info")).map
          (fun fs0 => (fs0.description, fs0.children.map Field.name))) =
      .ok [(some "two", ["a", "b"])]) :=
  claim_C7 initialFieldsets
    { name := "default", label := none, description := some "two",
      order := DEFAULT_ORDER, fields := [] }
    defaultFieldset (by decide)

/-- C8: every truthy widget annotation that is neither a
`ParameterizedWidget` instance nor a string makes `resolve_widget` fail
with `UnknownWidgetError` carrying the offending value. -/
theorem claim_C8 (w : RawWidget) (ht : rawTruthy (some w) = true)
    (hp : ∀ pw, w ≠ .parameterized pw) (hs : ∀ s, w ≠ .str s) :
    resolve_widget (some w) = .error (.UnknownWidgetError w) := by
  cases w with
  | parameterized pw => exact absurd rfl (hp pw)
  | str s => exact absurd rfl (hs s)
  | other t n =>
      simp only [rawTruthy] at ht
      subst ht
      rfl

/-- C8 witness: a concrete truthy non-widget, non-string annotation. -/
theorem claim_C8_witness :
    resolve_widget (some (.other true 7)) =
      .error (.UnknownWidgetError (.other true 7)) :=
  claim_C8 (.other true 7) rfl (fun _ h => RawWidget.noConfusion h)
    (fun _ h => RawWidget.noConfusion h)

/-- C9 counterexample: the empty string is a string-valued annotation, yet
`resolve_widget` returns no override for it (the falsy check fires before
the string check), contradicting the claim's universal statement about
string-valued annotations. -/
theorem claim_C9_counterexample :
    resolve_widget (some (.str "")) = .ok none ∧
    resolve_widget (some (.str "")) ≠
      .ok (some { factory := some (resolve ""), params := [] }) :=
  ⟨by decide, by decide⟩

/-- C9 amended: for every non-empty (truthy) string annotation,
`resolve_widget` returns an override whose factory is the dotted-name
resolution of the string and whose params mapping is empty; for every
absent or falsy annotation (including the empty string) it returns no
override. -/
theorem claim_C9_amended :
    (∀ s : String, s ≠ "" →
      resolve_widget (some (.str s)) =
        .ok (some { factory := some (resolve s), params := [] })) ∧
    (∀ w : Option RawWidget, rawTruthy w = false → resolve_widget w = .ok none) := by
  constructor
  · intro s hs
    have ht : rawTruthy (some (.str s)) = true := by
      simp [rawTruthy, hs]
    unfold resolve_widget
    rw [ht]
    simp
  · intro w hw
    unfold resolve_widget
    rw [hw]
    simp

/-- C9 witness: a concrete non-empty dotted path and the absent
annotation. -/
theorem claim_C9_witness :
    resolve_widget (some (.str "pkg.mod.MyWidget")) =
      .ok (some { factory := some (resolve "pkg.mod.MyWidget"), params := [] }) ∧
    resolve_widget none = .ok none :=
  ⟨claim_C9_amended.1 "pkg.mod.MyWidget" (by decide), claim_C9_amended.2 none rfl⟩

/-- C10: a declaration named `"default"` is merged into the pre-created
default group rather than creating a second one: the key set is unchanged,
the merged entry keeps the accumulated children, every other map entry is
untouched, and the bootstrap label is replaced exactly when the declared
label differs (Python equality) from both the current label and the string
`"default"`; the concrete one-schema scenario shows the single `"default"`
output group with the declared member first and the remaining field
appended. -/
theorem claim_C10 (fs : Fieldsets) (sf : SchemaFieldset) (d0 : Fieldset)
    (hname : sf.name = "default") (hd : odLookup fs "default" = some d0)
    (hn0 : d0.name = "default") :
    odKeys (resolve_fieldset fs sf) = odKeys fs ∧
    odLookup (resolve_fieldset fs sf) "default" = some (mergeFieldset d0 sf) ∧
    (mergeFieldset d0 sf).children = d0.children ∧
    (∀ k, k ≠ "default" → odLookup (resolve_fieldset fs sf) k = odLookup fs k) ∧
    ((mergeFieldset d0 sf).label =
      if !labelEq sf.label d0.label && !labelEqStr sf.label "default"
      then sf.label else d0.label) ∧
    (∀ vorder, IsValuesEnum vorder →
      (resolve_schemata vorder [schemaDefaultDecl]).map
        (fun l => l.map (fun fs0 => (fs0.name, fs0.children.map Field.name))) =
      .ok [("default", ["b", "a"])]) := by
  have hd' : odLookup fs sf.name = some d0 := by rw [hname]; exact hd
  refine ⟨?_, ?_, mergeFieldset_children d0 sf, ?_, ?_, ?_⟩
  · rw [resolve_fieldset_of_some hd']
    exact odKeys_odSet_of_mem _ (mem_odKeys_of_odLookup hd')
  · rw [resolve_fieldset_of_some hd', ← hname]
    exact odLookup_odSet_self fs sf.name _
  · intro k hk
    have hk' : k ≠ sf.name := by rw [hname]; exact hk
    exact resolve_fieldset_lookup_ne hk'
  · rw [mergeFieldset_label, hn0]
  · intro vorder hv
    rw [resolve_schemata_ok_of
      (show processSchemata initialFieldsets 0 [schemaDefaultDecl] =
        .ok defaultDeclMap from by decide)]
    have heval := eval_sort_of_perm (odValues defaultDeclMap)
      (fun l => l.map (fun fs0 => (fs0.name, fs0.children.map Field.name)))
      [("default", ["b", "a"])] (by decide) (hv defaultDeclMap)
    simp only [Except.map]
    exact congrArg Except.ok heval

/-- C10 witness: merging the concrete `"default"` declaration of the
scenario schema into the bootstrap map. -/
theorem claim_C10_witness :
    odKeys (resolve_fieldset initialFieldsets
        { name := "default", label := none, description := none,
          order := DEFAULT_ORDER, fields := ["b"] }) = odKeys initialFieldsets ∧
    odLookup (resolve_fieldset initialFieldsets
        { name := "default", label := none, description := none,
          order := DEFAULT_ORDER, fields := ["b"] }) "default" =
      some (mergeFieldset defaultFieldset
        { name := "default", label := none, description := none,
          order := DEFAULT_ORDER, fields := ["b"] }) ∧
    (mergeFieldset defaultFieldset
        { name := "default", label := none, description := none,
          order := DEFAULT_ORDER, fields := ["b"] }).children =
      defaultFieldset.children ∧
    (∀ k, k ≠ "default" →
      odLookup (resolve_fieldset initialFieldsets
          { name := "default", label := none, description := none,
            order := DEFAULT_ORDER, fields := ["b"] }) k =
        odLookup initialFieldsets k) ∧
    ((mergeFieldset defaultFieldset
        { name := "default", label := none, description := none,
          order := DEFAULT_ORDER, fields := ["b"] }).label =
      if !labelEq none defaultFieldset.label && !labelEqStr none "default"
      then none else defaultFieldset.label) ∧
    (∀ vorder, IsValuesEnum vorder →
      (resolve_schemata vorder [schemaDefaultDecl]).map
        (fun l => l.map (fun fs0 => (fs0.name, fs0.children.map Field.name))) =
      .ok [("default", ["b", "a"])]) :=
  claim_C10 initialFieldsets
    { name := "default", label := none, description := none,
      order := DEFAULT_ORDER, fields := ["b"] }
    defaultFieldset rfl (by decide) rfl

/-- C1 counterexample: the group map is a plain Python 2 dict, so the
enumeration order of `fieldsets.values()` is unspecified; under the
admissible reverse enumeration, the two unset-order groups `"p"` (inserted
into the map first) and `"q"` come out of the stable sort as `"q"` before
`"p"` — the output does not retain their map-insertion order, refuting the
claim's stable-secondary-order guarantee at a concrete input. -/
theorem claim_C1_counterexample :
    IsValuesEnum revEnum ∧
    processSchemata initialFieldsets 0 [schemaStable] = .ok stableMap ∧
    resolve_schemata revEnum [schemaStable] =
      .ok [{ name := "q", label := some (.plain "Q"), description := none,
             order := DEFAULT_ORDER, children := [] },
           { name := "p", label := some (.plain "P"), description := none,
             order := DEFAULT_ORDER, children := [] },
           defaultFieldset] ∧
    ([{ name := "q", label := some (.plain "Q"), description := none,
        order := DEFAULT_ORDER, children := [] },
      { name := "p", label := some (.plain "P"), description := none,
        order := DEFAULT_ORDER, children := [] },
      defaultFieldset].filter (fun g => g.order = DEFAULT_ORDER) ≠
      (odValues stableMap).filter (fun g => g.order = DEFAULT_ORDER)) :=
  ⟨fun m => List.reverse_perm (odValues m), by decide, by decide, by decide⟩

/-- C1 amended: on success and for every admissible enumeration of the
group map's values, `resolve_schemata` returns all groups of the map
sorted ascending by `order`, and groups sharing the unset sentinel retain
the relative order in which the dict enumeration yields them (the sort is
stable) — which, the map being a plain Python 2 dict, is not guaranteed to
be the map-insertion order. -/
theorem claim_C1_amended (vorder : Fieldsets → List Fieldset)
    (hv : IsValuesEnum vorder) (schemata : List Schema) (m : Fieldsets)
    (h : processSchemata initialFieldsets 0 schemata = .ok m) :
    ∃ out, resolve_schemata vorder schemata = .ok out ∧
      out.Pairwise orderLe ∧
      out.Perm (odValues m) ∧
      out.filter (fun g => g.order = DEFAULT_ORDER) =
        (vorder m).filter (fun g => g.order = DEFAULT_ORDER) := by
  refine ⟨List.insertionSort orderLe (vorder m), resolve_schemata_ok_of h, ?_, ?_, ?_⟩
  · exact List.sorted_insertionSort orderLe (vorder m)
  · exact (List.perm_insertionSort orderLe (vorder m)).trans (hv m)
  · have hsub : ((vorder m).filter (fun g => g.order = DEFAULT_ORDER)).Sublist
        (vorder m) := List.filter_sublist _
    have hpw : ((vorder m).filter (fun g => g.order = DEFAULT_ORDER)).Pairwise orderLe := by
      apply List.pairwise_of_forall_mem_list
      intro a ha b hb
      have ha' := (List.mem_filter.mp ha).2
      have hb' := (List.mem_filter.mp hb).2
      simp only [decide_eq_true_eq] at ha' hb'
      show a.order ≤ b.order
      rw [ha', hb']
    have h1 : ((vorder m).filter (fun g => g.order = DEFAULT_ORDER)).Sublist
        (List.insertionSort orderLe (vorder m)) :=
      List.sublist_insertionSort hpw hsub
    have h2 := List.Sublist.filter (fun g => decide (g.order = DEFAULT_ORDER)) h1
    have h3 : ((vorder m).filter (fun g => g.order = DEFAULT_ORDER)).filter
        (fun g => g.order = DEFAULT_ORDER) =
        (vorder m).filter (fun g => g.order = DEFAULT_ORDER) := by
      rw [List.filter_eq_self]
      intro a ha
      exact (List.mem_filter.mp ha).2
    rw [h3] at h2
    have h4 : ((List.insertionSort orderLe (vorder m)).filter
        (fun g => g.order = DEFAULT_ORDER)).Perm
        ((vorder m).filter (fun g => g.order = DEFAULT_ORDER)) :=
      (List.perm_insertionSort orderLe (vorder m)).filter _
    exact (h2.eq_of_length h4.length_eq.symm).symm

/-- C1 witness for the amended claim: the concrete two-schema ordering
scenario under one admissible enumeration. -/
theorem claim_C1_witness :
    ∃ out, resolve_schemata odValues [schemaOrderA, schemaOrderB] = .ok out ∧
      out.Pairwise orderLe ∧
      out.Perm (odValues ordersMap) ∧
      out.filter (fun g => g.order = DEFAULT_ORDER) =
        (odValues ordersMap).filter (fun g => g.order = DEFAULT_ORDER) :=
  claim_C1_amended odValues (fun m => List.Perm.refl (odValues m))
    [schemaOrderA, schemaOrderB] ordersMap (by decide)

/-- C2: within one schema's pass, the fields of the built working set are
distributed into the groups without loss or duplication (multiset
equation), every field named by a group declaration ends up a child of
that group, and the fields named by no declaration are appended to the
`"default"` group's children in their original declaration order. -/
theorem claim_C2 (fs : Fieldsets) (schema : Schema) (b : Bool) (m' : Fieldsets)
    (flds : List (String × Field))
    (hdef : "default" ∈ odKeys fs)
    (hb : buildFields schema.id b schema.widgets schema.fieldsInOrder [] = .ok flds)
    (h : processSchema fs schema b = .ok m') :
    (allChildren m').Perm (allChildren fs ++ odValues flds) ∧
    (∀ sf ∈ schema.schema_fieldsets, ∀ n ∈ sf.fields,
      ∃ f, odLookup flds n = some f ∧
        ∃ gv, odLookup m' sf.name = some gv ∧ f ∈ gv.children) ∧
    (∃ d pre, odLookup m' "default" = some d ∧
      d.children = pre ++
        odValues (flds.filter (fun p => p.1 ∉ declNames schema.schema_fieldsets))) := by
  rw [processSchema_ok_iff] at h
  obtain ⟨flds2, r, hb2, hpf, hm⟩ := h
  rw [hb] at hb2
  rw [← Except.ok.inj hb2] at hpf
  subst hm
  have hndf : NodupKeys flds := buildFields_nodupKeys (by simp [NodupKeys, odKeys]) hb
  have hdef1 : "default" ∈ odKeys r.1 := processFieldsets_keys_mono hpf _ hdef
  obtain ⟨d1, hd1⟩ := odLookup_isSome_of_mem hdef1
  refine ⟨?_, ?_, ?_⟩
  · have hpfa := processFieldsets_allChildren hndf hpf
    have har := @addRemaining_allChildren r.2 r.1 d1 hd1
    exact har.trans hpfa
  · intro sf hsf n hn
    obtain ⟨f, hf, gv, hgv, hch⟩ := processFieldsets_member hndf hpf sf hsf n hn
    obtain ⟨v', hv', hne, t, ht⟩ := @addRemaining_mono r.2 r.1 sf.name gv hgv
    refine ⟨f, hf, v', hv', ?_⟩
    rw [ht]
    exact List.mem_append_left _ hch
  · obtain ⟨_, hr2⟩ := processFieldsets_ok_fields hndf hpf
    refine ⟨{ d1 with children := d1.children ++ odValues r.2 }, d1.children,
      addRemaining_default hd1, ?_⟩
    rw [← hr2]

/-- C2 witness: the concrete one-schema scenario with an `"info"` group
consuming field `"a"`. -/
theorem claim_C2_witness :
    (allChildren
        [("default", defaultFieldset),
         ("info", { name := "info", label := some (.plain "Info"),
                    description := some "one", order := DEFAULT_ORDER,
                    children := [mkField 1 false "a" (sfld "A") none] })]).Perm
      (allChildren initialFieldsets ++
        odValues [("a", mkField 1 false "a" (sfld "A") none)]) ∧
    (∀ sf ∈ schemaInfoA.schema_fieldsets, ∀ n ∈ sf.fields,
      ∃ f, odLookup [("a", mkField 1 false "a" (sfld "A") none)] n = some f ∧
        ∃ gv, odLookup
            [("default", defaultFieldset),
             ("info", { name := "info", label := some (.plain "Info"),
                        description := some "one", order := DEFAULT_ORDER,
                        children := [mkField 1 false "a" (sfld "A") none] })]
            sf.name = some gv ∧ f ∈ gv.children) ∧
    (∃ d pre, odLookup
        [("default", defaultFieldset),
         ("info", { name := "info", label := some (.plain "Info"),
                    description := some "one", order := DEFAULT_ORDER,
                    children := [mkField 1 false "a" (sfld "A") none] })]
        "default" = some d ∧
      d.children = pre ++
        odValues ([("a", mkField 1 false "a" (sfld "A") none)].filter
          (fun p => p.1 ∉ declNames schemaInfoA.schema_fieldsets))) :=
  claim_C2 initialFieldsets schemaInfoA false
    [("default", defaultFieldset),
     ("info", { name := "info", label := some (.plain "Info"),
                description := some "one", order := DEFAULT_ORDER,
                children := [mkField 1 false "a" (sfld "A") none] })]
    [("a", mkField 1 false "a" (sfld "A") none)]
    (by decide) (by decide) (by decide)

/-- C3 counterexample: a schema redeclaring the `"default"` fieldset with
label `"Main"` makes the output's default group carry label `"Main"`, not
the bootstrap localized label, so the claim's universally quantified
label/order part fails. -/
theorem claim_C3_counterexample :
    IsValuesEnum odValues ∧
    processSchemata initialFieldsets 0 [schemaDefaultMain] =
      .ok [("default", { name := "default", label := some (.plain "Main"),
                         description := none, order := DEFAULT_ORDER, children := [] })] ∧
    resolve_schemata odValues [schemaDefaultMain] =
      .ok [{ name := "default", label := some (.plain "Main"), description := none,
             order := DEFAULT_ORDER, children := [] }] ∧
    (some (Label.plain "Main") ≠ some (Label.message "default" "Default")) :=
  ⟨fun m => List.Perm.refl (odValues m), by decide, by decide, by decide⟩

/-- C3 amended: a group named `"default"` is always present in the output
(possibly with empty children); it carries the bootstrap localized label
and the unset order whenever no input schema declares a fieldset named
`"default"` (a redeclaration may override them per the merge rules). -/
theorem claim_C3_amended (vorder : Fieldsets → List Fieldset)
    (hv : IsValuesEnum vorder) (schemata : List Schema) (out : List Fieldset)
    (h : resolve_schemata vorder schemata = .ok out) :
    (∃ fs ∈ out, fs.name = "default") ∧
    ((∀ schema ∈ schemata, ∀ sf ∈ schema.schema_fieldsets, sf.name ≠ "default") →
      ∃ fs ∈ out, fs.name = "default" ∧ fs.label = defaultFieldset.label ∧
        fs.order = DEFAULT_ORDER) := by
  unfold resolve_schemata at h
  cases hps : processSchemata initialFieldsets 0 schemata with
  | error e => rw [hps] at h; exact absurd h (by simp)
  | ok m =>
      rw [hps] at h
      have hout : out = List.insertionSort orderLe (vorder m) := (Except.ok.inj h).symm
      obtain ⟨hnd, hnm, hdef⟩ := processSchemata_WF WF_initialFieldsets hps
      obtain ⟨d, hd⟩ := odLookup_isSome_of_mem hdef
      have hdo : d ∈ out := by
        rw [hout, List.mem_insertionSort]
        exact (hv m).mem_iff.mpr (odLookup_mem_odValues hd)
      refine ⟨⟨d, hdo, hnm _ _ hd⟩, ?_⟩
      intro hno
      obtain ⟨d', hd', hl, ho, _, hn⟩ :=
        processSchemata_default_attrs hno
          (show odLookup initialFieldsets "default" = some defaultFieldset from rfl) hps
      have hdo' : d' ∈ out := by
        rw [hout, List.mem_insertionSort]
        exact (hv m).mem_iff.mpr (odLookup_mem_odValues hd')
      exact ⟨d', hdo', hn, hl, ho⟩

/-- C3 witness for the amended claim: the empty schema list. -/
theorem claim_C3_witness :
    (∃ fs ∈ [defaultFieldset], fs.name = "default") ∧
    ((∀ schema ∈ ([] : List Schema), ∀ sf ∈ schema.schema_fieldsets, sf.name ≠ "default") →
      ∃ fs ∈ [defaultFieldset], fs.name = "default" ∧ fs.label = defaultFieldset.label ∧
        fs.order = DEFAULT_ORDER) :=
  claim_C3_amended odValues (fun m => List.Perm.refl (odValues m)) [] [defaultFieldset]
    (by decide)

/-- C4: if every schema before a given one processes successfully, the
given schema's fields build successfully, but its group declarations name
a member that is not in the working set (unknown, or consumed twice), then
the whole `resolve_schemata` call returns a `MissingFieldError` — no
partial output, regardless of any schemas after it. -/
theorem claim_C4 (vorder : Fieldsets → List Fieldset)
    (pre post : List Schema) (schema : Schema) (m : Fieldsets)
    (flds : List (String × Field))
    (hpre : processSchemata initialFieldsets 0 pre = .ok m)
    (hb : buildFields schema.id (pre.length != 0) schema.widgets
      schema.fieldsInOrder [] = .ok flds)
    (hbad : ¬((declNames schema.schema_fieldsets).Nodup ∧
      ∀ n ∈ declNames schema.schema_fieldsets, n ∈ odKeys flds)) :
    ∃ n ∈ declNames schema.schema_fieldsets,
      resolve_schemata vorder (pre ++ schema :: post) =
        .error (.MissingFieldError n) := by
  have hndf : NodupKeys flds := buildFields_nodupKeys (by simp [NodupKeys, odKeys]) hb
  obtain ⟨n, hn, hpf⟩ := @processFieldsets_error schema.schema_fieldsets m flds hndf hbad
  refine ⟨n, hn, ?_⟩
  have hs : processSchema m schema (pre.length != 0) =
      .error (.MissingFieldError n) := processSchema_pf_error hb hpf
  unfold resolve_schemata
  rw [processSchemata_append pre (schema :: post) initialFieldsets 0, hpre]
  simp [processSchemata, hs]

/-- C4 witness: one schema whose declaration names an unknown field. -/
theorem claim_C4_witness :
    ∃ n ∈ declNames schemaMissing.schema_fieldsets,
      resolve_schemata odValues ([] ++ schemaMissing :: []) =
        .error (.MissingFieldError n) :=
  claim_C4 odValues [] [] schemaMissing initialFieldsets
    [("a", mkField 1 false "a" (sfld "A") none)]
    (by decide) (by decide) (by decide)

end Yafowil
